import Mathlib

/-!
Verification of the Hershey font module (`hershey_font.py`): the `.jhf`
format decoder (`HersheyGlyphs.load`), the encoder (`HersheyGlyphs.save`),
the font union (`HersheyGlyphs.__or__`) and the encoding-table builder
(`make_enc`), shallowly embedded over lists of character codes.

Python strings are modelled as `List Nat` of Unicode codepoints; Python
dicts as insertion-ordered association lists (`dinsert` replaces in place
on an existing key, appends otherwise, exactly like CPython dicts).
-/

namespace Hershey

/-- Lookup in an insertion-ordered association list (Python `d[k]` /
`d.get(k)`): first entry with the given key. -/
def dlookup (k : Int) : List (Int × α) → Option α
  | [] => none
  | (k2, v) :: rest => if k2 = k then some v else dlookup k rest

/-- Python dict assignment `d[k] = v`: replace in place if the key exists,
else append (CPython preserves the original insertion position). -/
def dinsert (k : Int) (v : α) : List (Int × α) → List (Int × α)
  | [] => [(k, v)]
  | (k2, v2) :: rest =>
      if k2 = k then (k, v) :: rest else (k2, v2) :: dinsert k v rest

/-- The keys of a dict, in insertion order. -/
def dkeys (l : List (Int × α)) : List Int := l.map (·.1)

/-! ### Python numeric string primitives -/

/-- Whitespace codepoints stripped by Python's `str.strip()` (the ones that
can occur in this format). -/
def isSpaceCode (c : Nat) : Bool := c = 32 || c = 9 || c = 10 || c = 13

/-- Python `str.strip()` on a codepoint list. -/
def pyStrip (s : List Nat) : List Nat :=
  ((s.dropWhile isSpaceCode).reverse.dropWhile isSpaceCode).reverse

/-- Decimal digit value of a codepoint, if it is one of `'0'..'9'`. -/
def digitVal (c : Nat) : Option Nat :=
  if 48 ≤ c ∧ c ≤ 57 then some (c - 48) else none

/-- Accumulating decimal parse; fails on any non-digit. -/
def parseDigitsAux : List Nat → Nat → Option Nat
  | [], acc => some acc
  | c :: rest, acc =>
      match digitVal c with
      | some d => parseDigitsAux rest (acc * 10 + d)
      | none => none

/-- Parse a non-empty all-digit string. -/
def parseDigits : List Nat → Option Nat
  | [] => none
  | l => parseDigitsAux l 0

/-- Python `int(s)`: strip whitespace, optional sign, decimal digits;
`none` models the `ValueError` on anything else. -/
def pyInt (s : List Nat) : Option Int :=
  match pyStrip s with
  | [] => none
  | c :: ds =>
      if c = 45 then Option.map (fun n => -(Int.ofNat n)) (parseDigits ds)
      else if c = 43 then Option.map Int.ofNat (parseDigits ds)
      else Option.map Int.ofNat (parseDigits (c :: ds))

/-- Decimal digits of `n` (most significant first), fuel-structured so that
it reduces definitionally; `natToDec` supplies enough fuel. -/
def natToDecAux : Nat → Nat → List Nat
  | 0, _ => []
  | fuel + 1, n =>
      if n < 10 then [48 + n] else natToDecAux fuel (n / 10) ++ [48 + n % 10]

/-- Decimal representation of a natural number, as codepoints. -/
def natToDec (n : Nat) : List Nat := natToDecAux (n + 1) n

/-- Python `"%d" % i`. -/
def intToDec (i : Int) : List Nat :=
  if i < 0 then 45 :: natToDec i.natAbs else natToDec i.toNat

/-- Python `"%wd" % i`: right-justified in a field of `w` spaces (never
truncates). -/
def padNum (w : Nat) (i : Int) : List Nat :=
  List.replicate (w - (intToDec i).length) 32 ++ intToDec i

/-! ### The glyph model (`HersheyGlyphs.Glyph`)

`parent` is only a back-reference to the owning container and carries no
glyph data, so it is omitted; a glyph's data is its horizontal extents and
its path, a list of segments of `(x, y)` points. -/

structure Glyph where
  min_x : Int
  max_x : Int
  path : List (List (Int × Int))
deriving DecidableEq

/-- Running bounding box accumulated across all records of a load
(`min_x`/`max_x`/`min_y`/`max_y` locals of `HersheyGlyphs.load`). -/
structure BBox where
  mnx : Int
  mxx : Int
  mny : Int
  mxy : Int
deriving DecidableEq

def updBBox (b : BBox) (c : Int × Int) : BBox :=
  ⟨min b.mnx c.1, max b.mxx c.1, min b.mny c.2, max b.mxy c.2⟩

/-! ### The decoder (`HersheyGlyphs.load`), one record -/

/-- A coordinate pair equal to `(' ', 'R')`, i.e. the pen-up marker
(`xc + yc == " R"` in the source). -/
def isPenUp (p : Nat × Nat) : Bool := p.1 = 32 && p.2 = 82

/-- State of the per-record `while` loop of `HersheyGlyphs.load`:
the raw horizontal extents once seen (`x_extents`), the currently open
segment (`points`, `none` ↔ Python `None`), the closed segments
(`pathsegs`) and the running global bounding box. -/
structure DecState where
  xext : Option (Int × Int)
  points : Option (List (Int × Int))
  segs : List (List (Int × Int))
  bbox : BBox
deriving DecidableEq

/-- The body of the decode loop of `HersheyGlyphs.load` (lines 105–144),
run over the record's coordinate pairs; the `[]` case is the final
`i == nr_points` iteration (close the open segment and break).  A pen-up
marker closes the open segment whenever `points` is not `None` — even when
it is the empty list — exactly as the source tests `points != None`.
Errors model the `assert x_extents != None`. -/
def decodePairs (alignLeft : Bool) : List (Nat × Nat) → DecState →
    Except String DecState
  | [], st =>
      match st.xext with
      | none => .error "assert x_extents != None"
      | some _ =>
          .ok { st with
                segs := st.segs ++ (match st.points with
                                    | some ps => [ps]
                                    | none => []),
                points := none }
  | p :: rest, st =>
      if isPenUp p then
        match st.xext with
        | none => .error "assert x_extents != None"
        | some _ =>
            decodePairs alignLeft rest
              { st with
                segs := st.segs ++ (match st.points with
                                    | some ps => [ps]
                                    | none => []),
                points := some [] }
      else
        let pts0 := st.points.getD []
        let c : Int × Int := ((p.1 : Int) - 82, (p.2 : Int) - 82)
        let bb := updBBox st.bbox c
        match st.xext with
        | none =>
            decodePairs alignLeft rest
              { st with xext := some c, points := some pts0, bbox := bb }
        | some e =>
            let c2 : Int × Int := if alignLeft then (c.1 - e.1, c.2) else c
            decodePairs alignLeft rest
              { st with points := some (pts0 ++ [c2]), bbox := bb }

/-- Read coordinate pair characters `line[8 + i*2]`, `line[8 + i*2 + 1]`
for `i` in `[first, first + count)`; a missing index models Python's
`IndexError`. -/
def readPairsAux (line : List Nat) : Nat → Nat → Except String (List (Nat × Nat))
  | 0, _ => .ok []
  | count + 1, i =>
      match line.get? (8 + i * 2), line.get? (8 + i * 2 + 1) with
      | some a, some b => (readPairsAux line count (i + 1)).map ((a, b) :: ·)
      | _, _ => .error "string index out of range"

/-- All `nr_points` coordinate pairs of a record. -/
def readPairs (line : List Nat) (n : Nat) : Except String (List (Nat × Nat)) :=
  readPairsAux line n 0

/-- The effective glyph code of a record: the decoded 5-character code
field, except that the historical sentinel 12345 is replaced by the
record's 1-based line number plus 31 (lines 96–99). -/
def effCode (linenr : Nat) (rawCode : Int) : Int :=
  if rawCode = 12345 then (linenr : Int) + 31 else rawCode

def ofOption : Option α → String → Except String α
  | some a, _ => .ok a
  | none, msg => .error msg

/-- Decode one record of a `.jhf` stream (one iteration of the
`for line in open(filename)` loop of `HersheyGlyphs.load`): parse the
5-character code field and the 3-character point count, run the pair loop,
then apply the `align_left` rewrite of the stored extents.  Returns the
stored `(code, glyph)` and the updated global bounding box. -/
def loadRecord (linenr : Nat) (alignLeft : Bool) (bb : BBox)
    (line : List Nat) : Except String ((Int × Glyph) × BBox) := do
  let rawCode ← ofOption (pyInt (line.take 5)) "invalid literal for int()"
  let code := effCode linenr rawCode
  let nrPoints ← ofOption (pyInt ((line.drop 5).take 3)) "invalid literal for int()"
  let ps ← readPairs line nrPoints.toNat
  let st ← decodePairs alignLeft ps ⟨none, none, [], bb⟩
  let e ← ofOption st.xext "x_extents is None"
  let ext : Int × Int := if alignLeft then (0, e.2 - e.1) else e
  .ok ((code, ⟨ext.1, ext.2, st.segs⟩), st.bbox)

/-- The record loop of `HersheyGlyphs.load`: decode each line in turn,
storing each glyph in the dict under its effective code (later records
overwrite earlier ones on a repeated code) and threading the global
bounding box.  `linenr0` is the number of lines already consumed. -/
def loadLinesAux (alignLeft : Bool) :
    List (List Nat) → Nat → List (Int × Glyph) → BBox →
    Except String (List (Int × Glyph) × BBox)
  | [], _, acc, bb => .ok (acc, bb)
  | line :: rest, linenr0, acc, bb => do
      let ((code, g), bb2) ← loadRecord (linenr0 + 1) alignLeft bb line
      loadLinesAux alignLeft rest (linenr0 + 1) (dinsert code g acc) bb2

/-- Decode a `.jhf` record stream (the core of `HersheyGlyphs.load`,
which iterates the open file's lines with `min_x = max_x = min_y =
max_y = 0` initially).  Filename resolution and the encoding-table lookup
by font basename are environment interaction and are handled by the
caller. -/
def loadLines (alignLeft : Bool) (lines : List (List Nat)) :
    Except String (List (Int × Glyph) × BBox) :=
  loadLinesAux alignLeft lines 0 [] ⟨0, 0, 0, 0⟩

/-- Codepoints of a string literal, for readable concrete records. -/
def strToCodes (s : String) : List Nat := s.data.map Char.toNat

/-! ### Derived views of a record used to state decoder properties -/

/-- The two characters of a record's first coordinate pair (columns 8 and
9), which the decoder interprets as the raw `(min_x, max_x)` extents. -/
def rawExtPair (line : List Nat) : Option (Nat × Nat) :=
  match line.get? 8, line.get? 9 with
  | some a, some b => some (a, b)
  | _, _ => none

/-- Numeric value of a coordinate pair's characters
(`ord(c) - ord('R')` each). -/
def pairVal (p : Nat × Nat) : Int × Int := ((p.1 : Int) - 82, (p.2 : Int) - 82)

/-- A drawn point after the optional `align_left` shift by the raw
`min_x`. -/
def adjDrawn (al : Bool) (e : Int × Int) (c : Int × Int) : Int × Int :=
  if al then (c.1 - e.1, c.2) else c

/-- Split a pair list at pen-up markers into (possibly empty) chunks of
drawn pairs; the glyph's decoded segments are exactly these chunks of the
pairs after the extents pair. -/
def splitOnMarkers : List (Nat × Nat) → List (List (Nat × Nat))
  | [] => [[]]
  | p :: r =>
      if isPenUp p then [] :: splitOnMarkers r
      else
        match splitOnMarkers r with
        | c :: cs => (p :: c) :: cs
        | [] => [[p]]

/-- Prepend accumulated points to the first chunk. -/
def consHead (a : List α) : List (List α) → List (List α)
  | [] => [a]
  | c :: cs => (a ++ c) :: cs

/-- Flatten coordinate pairs back into a character stream. -/
def flatPairs : List (Nat × Nat) → List Nat
  | [] => []
  | p :: r => p.1 :: p.2 :: flatPairs r

/-- The character pair written for each point of a segment. -/
def segPairs (s : List (Int × Int)) : List (Nat × Nat) :=
  s.map (fun p => ((p.1 + 82).toNat, (p.2 + 82).toNat))

/-- Character pairs of the segments after the first, each preceded by the
pen-up marker. -/
def pathPairsTail : List (List (Int × Int)) → List (Nat × Nat)
  | [] => []
  | s :: r => (32, 82) :: (segPairs s ++ pathPairsTail r)

/-- Character pairs of a whole glyph body as the encoder writes it. -/
def pathPairs : List (List (Int × Int)) → List (Nat × Nat)
  | [] => []
  | s :: r => segPairs s ++ pathPairsTail r

/-! ### The glyph container (`HersheyGlyphs`)

`glyphs` is the code → glyph dict, `encoding` the optional Unicode → code
dict; `bmin`/`bmax` are the `min`/`max` Vectors.  `scale` is the float
`1 / max(width, height)`; it is a derived quantity not used by any claim
and floating point is outside the embedding, so it is not carried. -/

structure GlyphSet where
  glyphs : List (Int × Glyph)
  encoding : Option (List (Int × Int))
  baseline_y : Int
  bmin : Int × Int
  bmax : Int × Int
deriving DecidableEq

/-- `HersheyGlyphs.load` after the record loop (lines 150–155): package
the glyph dict, the global bounding box (shifted when `align_left`), the
constant baseline 9 and the encoding chosen by the caller (the source
looks it up in the static `encodings` table by font basename when
`use_encoding`; the filename handling itself is I/O). -/
def load (alignLeft : Bool) (enc : Option (List (Int × Int)))
    (lines : List (List Nat)) : Except String GlyphSet := do
  let (gl, bb) ← loadLines alignLeft lines
  let mn : Int × Int := (bb.mnx, bb.mny)
  let mx : Int × Int := (bb.mxx, bb.mxy)
  let mn2 := if alignLeft then ((0 : Int), mn.2) else mn
  let mx2 := if alignLeft then (mx.1 - mn.1, mx.2) else mx
  .ok ⟨gl, enc, 9, mn2, mx2⟩

/-! ### The encoder (`HersheyGlyphs.save`) -/

/-- The 3-digit point-count field computed by `HersheyGlyphs.save`
(lines 187–191): segment lengths plus one per segment when there are
segments, and 1 (the lone extents pair) for an empty path. -/
def saveNrPoints (g : Glyph) : Int :=
  if g.path.length ≠ 0 then
    ((g.path.map List.length).sum : Int) + g.path.length
  else 1

/-- Python `chr(v)`: the codepoint, or a `ValueError` out of range. -/
def pyChr (v : Int) : Except String Nat :=
  if 0 ≤ v ∧ v ≤ 1114111 then .ok v.toNat else .error "chr() arg not in range"

/-- The two characters `chr(p.x + ord('R')) chr(p.y + ord('R'))` for each
point of one segment. -/
def saveSeg : List (Int × Int) → Except String (List Nat)
  | [] => .ok []
  | p :: rest => do
      let x ← pyChr (p.1 + 82)
      let y ← pyChr (p.2 + 82)
      let r ← saveSeg rest
      .ok (x :: y :: r)

/-- Segments after the first, each preceded by the pen-up marker `" R"`. -/
def saveTail : List (List (Int × Int)) → Except String (List Nat)
  | [] => .ok []
  | s :: rest => do
      let a ← saveSeg s
      let b ← saveTail rest
      .ok (32 :: 82 :: (a ++ b))

/-- The glyph body: segments separated (not preceded) by pen-up markers,
as written by the `for i, pathseg in enumerate(glyph.path)` loop. -/
def savePath : List (List (Int × Int)) → Except String (List Nat)
  | [] => .ok []
  | s :: rest => do
      let a ← saveSeg s
      let b ← saveTail rest
      .ok (a ++ b)

/-- One record as written by `HersheyGlyphs.save` for a given code:
`"%5d"` code, `"%3d"` point count (asserted < 1000), the extents pair, the
body.  The trailing `"\n"` separates records and is implicit in the
line-list representation. -/
def saveRecord (code : Int) (g : Glyph) : Except String (List Nat) :=
  if saveNrPoints g ≥ 1000 then .error "assert nr_points < 1000"
  else do
    let cmin ← pyChr (g.min_x + 82)
    let cmax ← pyChr (g.max_x + 82)
    let body ← savePath g.path
    .ok (padNum 5 code ++ padNum 3 (saveNrPoints g) ++ cmin :: cmax :: body)

/-- The full record the encoder writes for a code and glyph whose fields
are all in range: 5-character code, 3-character point count, extents
pair, body. -/
def recLine (c : Int) (g : Glyph) : List Nat :=
  padNum 5 c ++ padNum 3 (saveNrPoints g) ++
    (g.min_x + 82).toNat :: (g.max_x + 82).toNat ::
      flatPairs (pathPairs g.path)

/-- Representability of one glyph entry in the `.jhf` format, as the
round-trip property requires it: the code fits the 5-digit field, is
positive (the encoder's assert) and is not the decoder's 12345 sentinel;
the glyph has at least one segment (a zero-segment path is re-read as one
empty segment); the reconstructed point count fits the 3-digit field; and
every extents value and drawn point is a single printable character
(value + 82 a codepoint of at least 32, so that no coordinate collides
with the record structure), with neither the extents pair nor any drawn
point encoding to the pen-up marker `" R"`. -/
def glyphOk (cg : Int × Glyph) : Prop :=
  0 < cg.1 ∧ cg.1 ≤ 99999 ∧ cg.1 ≠ 12345 ∧ cg.2.path ≠ [] ∧
  saveNrPoints cg.2 < 1000 ∧
  -50 ≤ cg.2.min_x ∧ cg.2.min_x + 82 ≤ 1114111 ∧
  -50 ≤ cg.2.max_x ∧ cg.2.max_x + 82 ≤ 1114111 ∧
  ¬(cg.2.min_x = -50 ∧ cg.2.max_x = 0) ∧
  (∀ s ∈ cg.2.path, ∀ p ∈ s,
    -50 ≤ p.1 ∧ p.1 + 82 ≤ 1114111 ∧ -50 ≤ p.2 ∧ p.2 + 82 ≤ 1114111 ∧
    ¬(p.1 = -50 ∧ p.2 = 0))

/-- The glyph to serialize for an iterated code: through the encoding
(`self.glyphs[self.encoding[code]]`) when one is in use, else directly;
`none` models the `KeyError`. -/
def saveGlyphFor (gs : GlyphSet) (ue : Bool) (code : Int) : Option Glyph :=
  if ue then
    (dlookup code (gs.encoding.getD [])).bind (fun gc => dlookup gc gs.glyphs)
  else dlookup code gs.glyphs

/-- A failed save: the records fully written before the failure, and the
message.  (The partially written record of a mid-record failure is not
tracked; the code-range assert this development reasons about fires
before any character of its record is written.) -/
structure SaveErr where
  written : List (List Nat)
  msg : String
deriving DecidableEq

/-- The `for code in sorted(codes)` loop of `HersheyGlyphs.save`: assert
the code fits 5 digits, look the glyph up, write its record. -/
def saveAux (gs : GlyphSet) (ue : Bool) :
    List Int → List (List Nat) → Except SaveErr (List (List Nat))
  | [], acc => .ok acc
  | c :: rest, acc =>
      if 0 < c ∧ c ≤ 99999 then
        match saveGlyphFor gs ue c with
        | none => .error ⟨acc, "KeyError"⟩
        | some g =>
            match saveRecord c g with
            | .error m => .error ⟨acc, m⟩
            | .ok line => saveAux gs ue rest (acc ++ [line])
      else .error ⟨acc, "assert code > 0 and code <= 99999"⟩

/-- The codes `HersheyGlyphs.save` iterates, in sorted order: the
encoding's keys when an encoding is present and requested, else the
native glyph codes. -/
def saveCodes (gs : GlyphSet) (ue0 : Bool) : List Int :=
  let ue := ue0 && gs.encoding.isSome
  List.insertionSort (· ≤ ·)
    (if ue then dkeys (gs.encoding.getD []) else dkeys gs.glyphs)

/-- `HersheyGlyphs.save`: serialize the glyph set to `.jhf` records
(`use_encoding` is forced off when there is no encoding). -/
def save (gs : GlyphSet) (ue0 : Bool) : Except SaveErr (List (List Nat)) :=
  saveAux gs (ue0 && gs.encoding.isSome) (saveCodes gs ue0) []

/-! ### The union (`HersheyGlyphs.__or__`) -/

/-- The `for k in sorted(f2.encoding)` loop of `__or__` (lines 249–260):
build the merged encoding, the remap of colliding `f2` glyph codes to
fresh codes above `f1`'s maximum, and the advanced offset. -/
def orEncAux (f1g : List (Int × Glyph)) (f2enc : List (Int × Int)) :
    List Int → List (Int × Int) → List (Int × Int) → Int →
    List (Int × Int) × List (Int × Int) × Int
  | [], enc, remap, off => (enc, remap, off)
  | k :: rest, enc, remap, off =>
      if (dlookup k enc).isSome then orEncAux f1g f2enc rest enc remap off
      else
        match dlookup k f2enc with
        | none => orEncAux f1g f2enc rest enc remap off
        | some code =>
            if (dlookup code f1g).isSome then
              orEncAux f1g f2enc rest (dinsert k (off + 1) enc)
                (dinsert code (off + 1) remap) (off + 1)
            else orEncAux f1g f2enc rest (dinsert k code enc) remap off

/-- The `for k in f2.glyphs` loop of `__or__` (lines 262–272): insert each
of `f2`'s glyphs (as a fresh copy of its geometry) under its merged code —
through the remap when encodings are present, else always at a fresh
sequential code. -/
def orGlyphsAux (remap : Option (List (Int × Int))) :
    List (Int × Glyph) → List (Int × Glyph) → Int → List (Int × Glyph) × Int
  | [], acc, off => (acc, off)
  | (k, g) :: rest, acc, off =>
      match remap with
      | some rm =>
          orGlyphsAux (some rm) rest
            (dinsert ((dlookup k rm).getD k) ⟨g.min_x, g.max_x, g.path⟩ acc) off
      | none =>
          orGlyphsAux none rest
            (dinsert (off + 1) ⟨g.min_x, g.max_x, g.path⟩ acc) (off + 1)

/-- The remap dict `f2_remap` built by `__or__` for a given pair of
operands (empty when no encodings are present). -/
def orRemap (f1 f2 : GlyphSet) : List (Int × Int) :=
  match f1.encoding, f2.encoding, (dkeys f1.glyphs).max? with
  | some e1, some e2, some m =>
      (orEncAux f1.glyphs e2 (List.insertionSort (· ≤ ·) (dkeys e2)) e1 [] m).2.1
  | _, _, _ => []

/-- `HersheyGlyphs.__or__`: union of two glyph sets.  Fails (the
`assert`) when exactly one operand carries an encoding; also fails when
`f1.glyphs` is empty (`max()` on an empty sequence).  `scale` is
recomputed from the merged box in the source and, being a float, is not
carried. -/
def hershey_or (f1 f2 : GlyphSet) : Except String GlyphSet :=
  if f1.encoding.isSome = f2.encoding.isSome then
    match (dkeys f1.glyphs).max? with
    | none => .error "max() arg is an empty sequence"
    | some m =>
        let bmin : Int × Int :=
          (min f1.bmin.1 f2.bmin.1, min f1.bmin.2 f2.bmin.2)
        let bmax : Int × Int :=
          (max f1.bmax.1 f2.bmax.1, max f1.bmax.2 f2.bmax.2)
        match f1.encoding, f2.encoding with
        | some e1, some e2 =>
            let r := orEncAux f1.glyphs e2
              (List.insertionSort (· ≤ ·) (dkeys e2)) e1 [] m
            let gl := (orGlyphsAux (some r.2.1) f2.glyphs f1.glyphs r.2.2).1
            .ok ⟨gl, some r.1, f1.baseline_y, bmin, bmax⟩
        | _, _ =>
            let gl := (orGlyphsAux none f2.glyphs f1.glyphs m).1
            .ok ⟨gl, none, f1.baseline_y, bmin, bmax⟩
  else .error "cannot have partially-encoded font"

/-! ### The encoding-table builder (`make_enc` inside `make_encodings`)

Characters are represented by their codepoints; the two fixed symbol
tables are carried in source insertion order. -/

/-- `syms1`: always in the same place, sometimes subsetted. -/
def syms1 : List (Int × Int) :=
  [(92, 804), (95, 999), (91, 2223), (93, 2224), (123, 2225), (125, 2226),
   (124, 2229), (60, 2241), (62, 2242), (126, 2246), (8593, 2262),
   (94, 2262), (37, 2271), (64, 2273), (35, 2275)]

/-- `syms2`: these sometimes moved/subsetted. -/
def syms2 : List (Int × Int) :=
  [(46, 3710), (44, 3711), (58, 3712), (59, 3713), (33, 3714), (63, 3715),
   (8216, 3716), (8217, 3717), (38, 3718), (36, 3719), (47, 3720),
   (40, 3721), (41, 3722), (42, 3723), (45, 3724), (43, 3725), (61, 3726),
   (34, 3728), (176, 3729)]

/-- The `extra` dict hard-wired by the `"rowmans"` preset. -/
def rowmansExtra : List (Int × Int) :=
  [(34, 717), (176, 718), (124, 723), (8216, 730), (8217, 731), (35, 733),
   (38, 734), (42, 2219)]

/-- The `extra` dict hard-wired by the `"greekc"` preset. -/
def greekcExtra : List (Int × Int) :=
  [(8216, 2252), (8217, 2251), (38, 2272), (36, 2274), (42, 2219),
   (45, 2231), (43, 2232), (61, 2238), (176, 2218)]

/-- Step 7, the `if extra != None` loop: each explicit mapping assigned
into the table, overwriting whatever is there. -/
def applyExtra (enc : List (Int × Int)) : Option (List (Int × Int)) →
    List (Int × Int)
  | none => enc
  | some ex => ex.foldl (fun e kv => dinsert kv.1 kv.2 e) enc

/-- First half of one redirect pass: `enc[redir] = enc[k]` for every
non-`None` redirect target, in dict order; a missing source key is the
Python `KeyError`. -/
def redirAssign : List (Int × Option Int) → List (Int × Int) →
    Except String (List (Int × Int))
  | [], enc => .ok enc
  | (k, redir) :: rest, enc =>
      match redir with
      | none => redirAssign rest enc
      | some r2 =>
          match dlookup k enc with
          | none => .error "KeyError"
          | some v => redirAssign rest (dinsert r2 v enc)

/-- Python `del d[k]`: `none` is the `KeyError`. -/
def ddelete (k : Int) : List (Int × α) → Option (List (Int × α))
  | [] => none
  | (k2, v) :: rest =>
      if k2 = k then some rest else (ddelete k rest).map ((k2, v) :: ·)

/-- Second half of one redirect pass: `del enc[k]` for every redirect key. -/
def redirDelete : List (Int × Option Int) → List (Int × Int) →
    Except String (List (Int × Int))
  | [], enc => .ok enc
  | (k, _) :: rest, enc =>
      match ddelete k enc with
      | none => .error "KeyError"
      | some enc2 => redirDelete rest enc2

/-- One full redirect pass (`for r in redirect, redirect2, redirect3`
body). -/
def applyRedirect (enc : List (Int × Int)) :
    Option (List (Int × Option Int)) → Except String (List (Int × Int))
  | none => .ok enc
  | some r => do
      let e1 ← redirAssign r enc
      redirDelete r e1

/-- `enc[ord("A") + i] = i + uc; enc[ord("a") + i] = i + lc` for
`i < nr_letters`; `uc`/`lc` absent is the Python `TypeError`. -/
def applyLetters (uc lc : Option Int) (nr_letters : Nat)
    (enc : List (Int × Int)) : Except String (List (Int × Int)) :=
  match uc, lc with
  | some u, some l =>
      .ok ((List.range nr_letters).foldl
        (fun e i => dinsert (97 + (i : Int)) ((i : Int) + l)
          (dinsert (65 + (i : Int)) ((i : Int) + u) e)) enc)
  | _, _ => .error "TypeError: unsupported operand"

/-- `make_enc`: build one encoding table from starting points for the
common glyph ranges plus the optional exceptions, followed by the `extra`
overrides and up to three redirect passes.  The `"rowmans"` and
`"greekc"` presets rebind `digits`, `sym2`, the exception sets and
`extra` exactly as the source does. -/
def make_enc (preset : Option String) (uc lc : Option Int)
    (digits0 : Option Int) (space0 : Option Int)
    (sym1_except0 : Option (List Int)) (sym2_0 : Int)
    (sym2_except0 : Option (List Int)) (nr_letters : Nat)
    (extra0 : Option (List (Int × Int)))
    (redirect redirect2 redirect3 : Option (List (Int × Option Int))) :
    Except String (List (Int × Int)) := do
  let base : Except String (List (Int × Int) × Option (List (Int × Int))) :=
    if preset = some "ascii" then
      .ok ((List.range' 32 96).foldl
            (fun e k => dinsert (k : Int) (k : Int) e) [], extra0)
    else if preset = some "private_use" then
      match extra0 with
      | none => .error "AttributeError: NoneType has no attribute values"
      | some ex =>
          let excepting := ex.map (·.2)
          .ok ((List.range' 32 96).foldl
                (fun e c =>
                  if (c : Int) ∈ excepting then e
                  else dinsert (0xe000 + (c : Int) - 32) (c : Int) e)
                [], extra0)
    else
      let args :=
        if preset = some "rowmans" then
          (some (700 : Int), some [(35 : Int), 124], (710 : Int),
           some [(8216 : Int), 8217, 38, 42, 34, 176], some rowmansExtra)
        else if preset = some "greekc" then
          (some (2200 : Int), sym1_except0, (2210 : Int),
           some [(8216 : Int), 8217, 38, 36, 42, 45, 43, 61, 34, 176],
           some greekcExtra)
        else (digits0, sym1_except0, sym2_0, sym2_except0, extra0)
      match args with
      | (digits, sym1_except, sym2v, sym2_except, extra) => do
          let enc1 := syms1.foldl
            (fun e kv =>
              match sym1_except with
              | none => dinsert kv.1 kv.2 e
              | some s => if kv.1 ∈ s then e else dinsert kv.1 kv.2 e) []
          let enc2 := syms2.foldl
            (fun e kv =>
              match sym2_except with
              | none => dinsert kv.1 (kv.2 - 3710 + sym2v) e
              | some s =>
                  if kv.1 ∈ s then e
                  else dinsert kv.1 (kv.2 - 3710 + sym2v) e) enc1
          let enc3 ← applyLetters uc lc nr_letters enc2
          let dg ← ofOption digits "TypeError: unsupported operand"
          let space := match space0 with
                       | none => dg - 1
                       | some s => s
          let enc4 := dinsert 32 space enc3
          let enc5 := (List.range 10).foldl
            (fun e i => dinsert (48 + (i : Int)) (dg + (i : Int)) e) enc4
          .ok (enc5, extra)
  let (enc0, extra) ← base
  let enc6 := applyExtra enc0 extra
  let enc7 ← applyRedirect enc6 redirect
  let enc8 ← applyRedirect enc7 redirect2
  applyRedirect enc8 redirect3

/-! ## Lemmas: dicts -/

theorem dlookup_dinsert_self (k : Int) (v : α) (l : List (Int × α)) :
    dlookup k (dinsert k v l) = some v := by
  induction l with
  | nil => simp [dinsert, dlookup]
  | cons e rest ih =>
      obtain ⟨k2, v2⟩ := e
      by_cases h : k2 = k
      · simp [dinsert, h, dlookup]
      · simp [dinsert, h, dlookup, ih]

theorem dlookup_dinsert_ne (k c : Int) (v : α) (l : List (Int × α))
    (h : k ≠ c) : dlookup c (dinsert k v l) = dlookup c l := by
  induction l with
  | nil => simp [dinsert, dlookup, h]
  | cons e rest ih =>
      obtain ⟨k2, v2⟩ := e
      by_cases h2 : k2 = k
      · subst h2
        simp [dinsert, dlookup, h]
      · simp [dinsert, h2, dlookup, ih]

theorem mem_of_dlookup_eq_some {k : Int} {v : α} {l : List (Int × α)}
    (h : dlookup k l = some v) : (k, v) ∈ l := by
  induction l with
  | nil => simp [dlookup] at h
  | cons e rest ih =>
      obtain ⟨k2, v2⟩ := e
      by_cases h2 : k2 = k
      · subst h2
        simp [dlookup] at h
        simp [h]
      · simp [dlookup, h2] at h
        exact List.mem_cons_of_mem _ (ih h)

theorem dlookup_isSome_iff_mem_dkeys {k : Int} {l : List (Int × α)} :
    (dlookup k l).isSome = true ↔ k ∈ dkeys l := by
  induction l with
  | nil => simp [dlookup, dkeys]
  | cons e rest ih =>
      obtain ⟨k2, v2⟩ := e
      by_cases h2 : k2 = k
      · subst h2
        simp [dlookup, dkeys]
      · simp [dlookup, h2, dkeys] at ih ⊢
        rw [ih]
        constructor
        · exact Or.inr
        · rintro (h | h)
          · exact absurd h.symm h2
          · exact h

theorem le_foldl_max (as : List Int) :
    ∀ a : Int, a ≤ as.foldl max a ∧ ∀ x ∈ as, x ≤ as.foldl max a := by
  induction as with
  | nil => intro a; simp
  | cons b bs ih =>
      intro a
      simp only [List.foldl_cons]
      have h1 := (ih (max a b)).1
      refine ⟨le_trans (le_max_left a b) h1, ?_⟩
      intro x hx
      rcases List.mem_cons.mp hx with h | h
      · rw [h]; exact le_trans (le_max_right a b) h1
      · exact (ih (max a b)).2 x h

theorem le_of_max?_eq_some {l : List Int} {m x : Int}
    (hm : l.max? = some m) (hx : x ∈ l) : x ≤ m := by
  cases l with
  | nil => cases hx
  | cons a as =>
      simp only [List.max?_cons'] at hm
      injection hm with hm
      subst hm
      rcases List.mem_cons.mp hx with h | h
      · rw [h]; exact (le_foldl_max as a).1
      · exact (le_foldl_max as a).2 x h

/-! ## Lemmas: decimal formatting and parsing round trip -/

theorem natToDecAux_digits {fuel n c : Nat} (h : c ∈ natToDecAux fuel n) :
    48 ≤ c ∧ c ≤ 57 := by
  induction fuel generalizing n with
  | zero => simp [natToDecAux] at h
  | succ fuel ih =>
      by_cases h10 : n < 10
      · simp [natToDecAux, h10] at h
        omega
      · simp [natToDecAux, h10] at h
        rcases h with h | h
        · exact ih h
        · have : n % 10 < 10 := Nat.mod_lt _ (by omega)
          omega

theorem natToDecAux_ne_nil {fuel n : Nat} (h : 0 < fuel) :
    natToDecAux fuel n ≠ [] := by
  cases fuel with
  | zero => omega
  | succ fuel =>
      by_cases h10 : n < 10 <;> simp [natToDecAux, h10]

theorem parseDigitsAux_append (l1 l2 : List Nat) (a : Nat) :
    parseDigitsAux (l1 ++ l2) a =
      match parseDigitsAux l1 a with
      | some m => parseDigitsAux l2 m
      | none => none := by
  induction l1 generalizing a with
  | nil => simp [parseDigitsAux]
  | cons c rest ih =>
      simp only [List.cons_append, parseDigitsAux]
      cases digitVal c with
      | none => simp
      | some d => simp [ih]

theorem digitVal_of_lt {d : Nat} (h : d < 10) : digitVal (48 + d) = some d := by
  unfold digitVal
  rw [if_pos (by omega)]
  congr 1
  omega

theorem parseDigitsAux_natToDecAux {fuel n : Nat} (h : n < fuel) (a : Nat) :
    parseDigitsAux (natToDecAux fuel n) a =
      some (a * 10 ^ (natToDecAux fuel n).length + n) := by
  induction fuel generalizing n a with
  | zero => omega
  | succ fuel ih =>
      by_cases h10 : n < 10
      · simp only [natToDecAux, if_pos h10]
        simp only [parseDigitsAux, digitVal_of_lt h10, List.length_cons,
          List.length_nil]
        congr 1
      · simp only [natToDecAux, if_neg h10]
        have hlt : n / 10 < fuel := by
          have h2 : n / 10 < n := Nat.div_lt_self (by omega) (by omega)
          omega
        rw [parseDigitsAux_append]
        rw [ih hlt a]
        have hm10 : n % 10 < 10 := Nat.mod_lt _ (by omega)
        simp only [parseDigitsAux, digitVal_of_lt hm10, List.length_append,
          List.length_cons, List.length_nil]
        congr 1
        have hdm := Nat.div_add_mod n 10
        calc (a * 10 ^ (natToDecAux fuel (n / 10)).length + n / 10) * 10
              + n % 10
            = a * 10 ^ ((natToDecAux fuel (n / 10)).length + 1)
              + (10 * (n / 10) + n % 10) := by rw [pow_succ]; ring
          _ = a * 10 ^ ((natToDecAux fuel (n / 10)).length + 1) + n := by
              rw [hdm]
          _ = a * 10 ^ ((natToDecAux fuel (n / 10)).length + (0 + 1)) + n := by
              norm_num

theorem parseDigits_natToDec (n : Nat) : parseDigits (natToDec n) = some n := by
  have hne : natToDec n ≠ [] := natToDecAux_ne_nil (by omega)
  unfold parseDigits
  cases hl : natToDec n with
  | nil => exact absurd hl hne
  | cons c rest =>
      have := @parseDigitsAux_natToDecAux (n + 1) n (by omega) 0
      unfold natToDec at hl
      rw [hl] at this
      simpa using this

theorem natToDecAux_length_le {fuel n k : Nat} (hk : 0 < k)
    (hn : n < 10 ^ k) (hf : n < fuel) :
    (natToDecAux fuel n).length ≤ k := by
  induction fuel generalizing n k with
  | zero => omega
  | succ fuel ih =>
      by_cases h10 : n < 10
      · simp [natToDecAux, h10]
        omega
      · simp only [natToDecAux, if_neg h10, List.length_append,
          List.length_cons, List.length_nil]
        have hk2 : 1 < k := by
          by_contra hc
          have : k = 1 := by omega
          subst this
          simp at hn
          omega
        have h1 : n / 10 < 10 ^ (k - 1) := by
          have h2 : 10 ^ k = 10 ^ (k - 1) * 10 := by
            conv_lhs => rw [show k = (k - 1) + 1 by omega]
            rw [pow_succ]
          rw [Nat.div_lt_iff_lt_mul (by omega)]
          omega
        have h3 : n / 10 < fuel := by
          have h2 : n / 10 < n := Nat.div_lt_self (by omega) (by omega)
          omega
        have := @ih (n / 10) (k - 1) (by omega) h1 h3
        omega

theorem intToDec_pos {i : Int} (h : 0 < i) : intToDec i = natToDec i.toNat := by
  unfold intToDec
  rw [if_neg (by omega)]

/-- Every character of a positive number's decimal form is a digit. -/
theorem intToDec_pos_digits {i : Int} (h : 0 < i) {c : Nat}
    (hc : c ∈ intToDec i) : 48 ≤ c ∧ c ≤ 57 := by
  rw [intToDec_pos h] at hc
  exact natToDecAux_digits hc

theorem dropWhile_isSpaceCode_replicate_append (m : Nat) (l : List Nat) :
    (List.replicate m 32 ++ l).dropWhile isSpaceCode = l.dropWhile isSpaceCode := by
  induction m with
  | zero => simp
  | succ m ih =>
      rw [List.replicate_succ, List.cons_append, List.dropWhile_cons_of_pos]
      · exact ih
      · simp [isSpaceCode]

/-- Stripping a right-justified field of a nonempty digit string yields
exactly the digit string. -/
theorem pyStrip_pad_digits (m : Nat) (l : List Nat) (hne : l ≠ [])
    (hd : ∀ c ∈ l, 48 ≤ c ∧ c ≤ 57) :
    pyStrip (List.replicate m 32 ++ l) = l := by
  have hds : ∀ c ∈ l, isSpaceCode c = false := by
    intro c hc
    have := hd c hc
    simp [isSpaceCode]
    omega
  have h1 : (List.replicate m 32 ++ l).dropWhile isSpaceCode = l := by
    rw [dropWhile_isSpaceCode_replicate_append]
    cases l with
    | nil => simp
    | cons c rest =>
        rw [List.dropWhile_cons_of_neg]
        simp [hds c (List.mem_cons_self c rest)]
  unfold pyStrip
  rw [h1]
  cases hrl : l.reverse with
  | nil => simp at hrl; exact absurd hrl hne
  | cons c rest =>
      have hc : c ∈ l := by
        have : c ∈ l.reverse := by rw [hrl]; exact List.mem_cons_self c rest
        simpa using this
      rw [List.dropWhile_cons_of_neg]
      · rw [← hrl]
        simp
      · simp [hds c hc]

/-- Python `int()` of a `"%wd"`-formatted positive number recovers it. -/
theorem pyInt_padNum {i : Int} (h : 0 < i) (w : Nat) :
    pyInt (padNum w i) = some i := by
  unfold pyInt padNum
  have hne : intToDec i ≠ [] := by
    rw [intToDec_pos h]
    exact natToDecAux_ne_nil (by omega)
  rw [pyStrip_pad_digits _ _ hne (fun c hc => intToDec_pos_digits h hc)]
  rw [intToDec_pos h]
  cases hl : natToDec i.toNat with
  | nil => exact absurd hl (natToDecAux_ne_nil (by omega))
  | cons c rest =>
      have hcd : 48 ≤ c ∧ c ≤ 57 := by
        apply @natToDecAux_digits (i.toNat + 1) i.toNat c
        rw [← natToDec]
        rw [hl]
        exact List.mem_cons_self c rest
      have h45 : ¬ (c = 45) := by omega
      have h43 : ¬ (c = 43) := by omega
      show (if c = 45 then Option.map (fun n => -(Int.ofNat n)) (parseDigits rest)
            else if c = 43 then Option.map Int.ofNat (parseDigits rest)
            else Option.map Int.ofNat (parseDigits (c :: rest))) = some i
      rw [if_neg h45, if_neg h43, ← hl, parseDigits_natToDec]
      simp only [Option.map_some']
      congr 1
      simpa using Int.toNat_of_nonneg (le_of_lt h)

/-! ## Lemmas: Except plumbing and record fields -/

@[simp] theorem except_ok_bind {ε : Type v} (a : α) (f : α → Except ε β) :
    (Except.ok a >>= f) = f a := rfl

@[simp] theorem except_error_bind {ε : Type v} (e : ε) (f : α → Except ε β) :
    ((Except.error e : Except ε α) >>= f) = Except.error e := rfl

theorem except_bind_ok {ε : Type v} {e : Except ε α} {f : α → Except ε β}
    {v : β} (h : (e >>= f) = .ok v) : ∃ a, e = .ok a ∧ f a = .ok v := by
  cases e with
  | error m => simp at h
  | ok a => exact ⟨a, rfl, h⟩

theorem intToDec_length_le {i : Int} (h0 : 0 < i) (h5 : i ≤ 99999) :
    (intToDec i).length ≤ 5 := by
  rw [intToDec_pos h0]
  have h1 : i.toNat < 10 ^ 5 := by
    have h2 : (10 : Nat) ^ 5 = 100000 := by norm_num
    omega
  exact natToDecAux_length_le (by omega) h1 (by omega)

theorem intToDec_length_le3 {i : Int} (h0 : 0 < i) (h3 : i ≤ 999) :
    (intToDec i).length ≤ 3 := by
  rw [intToDec_pos h0]
  have h1 : i.toNat < 10 ^ 3 := by
    have h2 : (10 : Nat) ^ 3 = 1000 := by norm_num
    omega
  exact natToDecAux_length_le (by omega) h1 (by omega)

theorem padNum_length {w : Nat} {i : Int} (h : (intToDec i).length ≤ w) :
    (padNum w i).length = w := by
  unfold padNum
  simp [List.length_append, List.length_replicate]
  omega

theorem take_padNum {w : Nat} {i : Int} (rest : List Nat)
    (h : (intToDec i).length ≤ w) :
    (padNum w i ++ rest).take w = padNum w i :=
  List.take_left' (padNum_length h)

theorem drop_padNum {w : Nat} {i : Int} (rest : List Nat)
    (h : (intToDec i).length ≤ w) :
    (padNum w i ++ rest).drop w = rest :=
  List.drop_left' (padNum_length h)

/-- The code field of a well-formed record parses back to the code. -/
theorem parse_code_field {c : Int} (rest : List Nat) (h0 : 0 < c)
    (h5 : c ≤ 99999) :
    pyInt ((padNum 5 c ++ rest).take 5) = some c := by
  rw [take_padNum rest (intToDec_length_le h0 h5)]
  exact pyInt_padNum h0 5

/-- The point-count field of a well-formed record parses back. -/
theorem parse_count_field {c n : Int} (body : List Nat) (h0 : 0 < c)
    (h5 : c ≤ 99999) (hn0 : 0 < n) (hn3 : n ≤ 999) :
    pyInt (((padNum 5 c ++ (padNum 3 n ++ body)).drop 5).take 3) = some n := by
  rw [drop_padNum _ (intToDec_length_le h0 h5)]
  rw [take_padNum body (intToDec_length_le3 hn0 hn3)]
  exact pyInt_padNum hn0 3

theorem saveNrPoints_pos (g : Glyph) : 1 ≤ saveNrPoints g := by
  unfold saveNrPoints
  by_cases h : g.path.length ≠ 0
  · rw [if_pos h]
    have h1 : (0 : Int) ≤ ((g.path.map List.length).sum : Int) :=
      Int.ofNat_nonneg _
    omega
  · rw [if_neg h]

/-- Every code iterated by a successful `saveAux` run passed the range
assert. -/
theorem saveAux_codes_in_range {gs : GlyphSet} {ue : Bool} :
    ∀ (codes : List Int) (acc out : List (List Nat)),
      saveAux gs ue codes acc = .ok out → ∀ c ∈ codes, 0 < c ∧ c ≤ 99999 := by
  intro codes
  induction codes with
  | nil => intro acc out h c hc; cases hc
  | cons c2 rest ih =>
      intro acc out h c hc
      unfold saveAux at h
      by_cases hr : 0 < c2 ∧ c2 ≤ 99999
      · rw [if_pos hr] at h
        rcases List.mem_cons.mp hc with he | hm
        · rw [he]; exact hr
        · split at h
          · simp at h
          · split at h
            · simp at h
            · exact ih _ _ h c hm
      · rw [if_neg hr] at h
        simp at h

/-! ## Claim theorems (with their counterexamples and witnesses) -/

/-- Claim C3 (confirmed): decoding the single record `"    1  2PUSQ"` with
`align_left = true` produces exactly the glyph set mapping code 1 to the
glyph with `min_x = 0`, `max_x = 5` and one path segment containing only
the point `(3, -1)`: the first pair `"PU"` is consumed as the raw extents
`(-2, 3)` and is not drawn, and the drawn pair `"SQ"` (raw `(1, -1)`) has
the raw `min_x` of `-2` subtracted from its x-coordinate. -/
theorem claim_C3_penup_splitting :
    loadLines true [strToCodes "    1  2PUSQ"] =
      .ok ([(1, ⟨0, 5, [[(3, -1)]]⟩)], ⟨-2, 1, -1, 3⟩) := rfl

/-- Claim C4 (confirmed): whenever exactly one of the two operands of the
union carries an encoding, `__or__` fails (the
`assert (f1.encoding != None) == (f2.encoding != None)`) and produces no
merged glyph set. -/
theorem claim_C4_merge_mixed_encoding (f1 f2 : GlyphSet)
    (h : f1.encoding.isSome ≠ f2.encoding.isSome) :
    hershey_or f1 f2 = .error "cannot have partially-encoded font" := by
  unfold hershey_or
  rw [if_neg h]

theorem claim_C4_merge_mixed_encoding_witness :
    hershey_or ⟨[(1, ⟨0, 0, []⟩)], some [(65, 1)], 9, (0, 0), (0, 0)⟩
               ⟨[(2, ⟨0, 1, []⟩)], none, 9, (0, 0), (0, 0)⟩ =
      .error "cannot have partially-encoded font" :=
  claim_C4_merge_mixed_encoding _ _ (by decide)

/-- Claim C5 (confirmed): a record whose decoded 5-character code field is
the sentinel 12345 is stored under the record's 1-based line number plus
31, and a record with any other decoded code keeps that code. -/
theorem claim_C5_sentinel_code (n : Nat) (al : Bool) (bb : BBox)
    (line : List Nat) (code : Int) (g : Glyph) (bb2 : BBox)
    (h : loadRecord n al bb line = .ok ((code, g), bb2)) :
    (pyInt (line.take 5) = some 12345 → code = (n : Int) + 31) ∧
    (∀ k : Int, pyInt (line.take 5) = some k → k ≠ 12345 → code = k) := by
  unfold loadRecord at h
  cases hp : pyInt (line.take 5) with
  | none => rw [hp] at h; simp [ofOption] at h
  | some r =>
      rw [hp] at h
      simp only [ofOption, except_ok_bind] at h
      obtain ⟨nr, hnr, h⟩ := except_bind_ok h
      obtain ⟨ps, hps, h⟩ := except_bind_ok h
      obtain ⟨st, hst, h⟩ := except_bind_ok h
      obtain ⟨e, he, h⟩ := except_bind_ok h
      simp only [Except.ok.injEq, Prod.mk.injEq] at h
      have hcode : code = effCode n r := h.1.1.symm
      constructor
      · intro h12
        injection h12 with h12
        rw [hcode, h12]
        simp [effCode]
      · intro k hk hne
        injection hk with hk
        subst hk
        rw [hcode]
        simp [effCode, hne]

theorem claim_C5_sentinel_code_witness :
    loadRecord 1 true ⟨0, 0, 0, 0⟩ (strToCodes "12345  1JZ") =
        .ok ((32, ⟨0, 16, [[]]⟩), ⟨-8, 0, 0, 8⟩) ∧
      (32 : Int) = ((1 : Nat) : Int) + 31 := by
  have hload : loadRecord 1 true ⟨0, 0, 0, 0⟩ (strToCodes "12345  1JZ") =
      .ok ((32, ⟨0, 16, [[]]⟩), ⟨-8, 0, 0, 8⟩) := by rfl
  refine ⟨hload, ?_⟩
  exact (claim_C5_sentinel_code 1 true ⟨0, 0, 0, 0⟩ (strToCodes "12345  1JZ")
      32 ⟨0, 16, [[]]⟩ ⟨-8, 0, 0, 8⟩ hload).1 (by rfl)

/-- Claim C6 (corrected, counterexample): the encoder does NOT write
(sum of segment lengths) + (number of segments) for every glyph — for a
glyph with zero segments that sum is 0, but the field written is 1. -/
theorem claim_C6_point_count_counterexample :
    saveRecord 1 ⟨0, 0, []⟩ = .ok (strToCodes "    1  1RR") ∧
      pyInt (((strToCodes "    1  1RR").drop 5).take 3) ≠
        some ((((Glyph.mk 0 0 []).path.map List.length).sum : Int) +
          (Glyph.mk 0 0 []).path.length) := by
  constructor
  · rfl
  · intro h
    simp [strToCodes, pyInt, pyStrip, isSpaceCode, parseDigits,
      parseDigitsAux, digitVal] at h

/-- Claim C6 (amended): for every glyph with at least one path segment the
3-digit point-count field written equals (sum of the segment lengths) +
(number of segments); for a glyph with zero segments the field written is
1 (the lone extents pair), not 0. -/
theorem claim_C6_point_count (c : Int) (g : Glyph) (line : List Nat)
    (hc0 : 0 < c) (hc5 : c ≤ 99999)
    (h : saveRecord c g = .ok line) :
    (g.path ≠ [] →
      pyInt ((line.drop 5).take 3) =
        some (((g.path.map List.length).sum : Int) + g.path.length)) ∧
    (g.path = [] → pyInt ((line.drop 5).take 3) = some 1) := by
  unfold saveRecord at h
  by_cases hnr : saveNrPoints g ≥ 1000
  · rw [if_pos hnr] at h
    simp at h
  · rw [if_neg hnr] at h
    obtain ⟨cmin, hcmin, h⟩ := except_bind_ok h
    obtain ⟨cmax, hcmax, h⟩ := except_bind_ok h
    obtain ⟨body, hbody, h⟩ := except_bind_ok h
    injection h with h
    subst h
    have hfield : pyInt (((padNum 5 c ++ padNum 3 (saveNrPoints g) ++
        (cmin :: cmax :: body)).drop 5).take 3) = some (saveNrPoints g) := by
      rw [List.append_assoc]
      exact parse_count_field _ hc0 hc5 (saveNrPoints_pos g) (by omega)
    constructor
    · intro hne
      rw [hfield]
      congr 1
      unfold saveNrPoints
      rw [if_pos (by simpa using hne)]
    · intro hnil
      rw [hfield]
      congr 1
      unfold saveNrPoints
      rw [if_neg (by simp [hnil])]

theorem claim_C6_point_count_witness :
    pyInt (((strToCodes "    1  2RWUQ").drop 5).take 3) =
      some ((([[((3 : Int), (-1 : Int))]].map List.length).sum : Int) +
        ([[((3 : Int), (-1 : Int))]] : List (List (Int × Int))).length) := by
  have hsr : saveRecord 1 ⟨0, 5, [[(3, -1)]]⟩ =
      .ok (strToCodes "    1  2RWUQ") := by rfl
  exact (claim_C6_point_count 1 ⟨0, 5, [[(3, -1)]]⟩
    (strToCodes "    1  2RWUQ") (by decide) (by decide) hsr).1 (by decide)

/-- Claim C10 (confirmed): `save` succeeds only when every code it
iterates (the native glyph codes, or the encoding's Unicode keys when an
encoding is in use) is strictly positive and at most 99999; in particular
a glyph set containing glyph code 0 — legal for the format's [0, 99999]
code range and the documented no-glyph fallback — fails the assert before
writing that record (nothing has been written at failure time). -/
theorem claim_C10_save_code_range :
    (∀ (gs : GlyphSet) (ue : Bool) (out : List (List Nat)),
        save gs ue = .ok out → ∀ c ∈ saveCodes gs ue, 0 < c ∧ c ≤ 99999) ∧
      save ⟨[(0, ⟨0, 0, []⟩)], none, 9, (0, 0), (0, 0)⟩ false =
        .error ⟨[], "assert code > 0 and code <= 99999"⟩ := by
  constructor
  · intro gs ue out h c hc
    unfold save at h
    exact saveAux_codes_in_range _ _ _ h c hc
  · rfl

theorem claim_C10_save_code_range_witness :
    save ⟨[(5, ⟨0, 0, []⟩)], none, 9, (0, 0), (0, 0)⟩ false =
        .ok [strToCodes "    5  1RR"] ∧
      (0 : Int) < 5 ∧ (5 : Int) ≤ 99999 := by
  refine ⟨rfl, ?_⟩
  exact claim_C10_save_code_range.1
    ⟨[(5, ⟨0, 0, []⟩)], none, 9, (0, 0), (0, 0)⟩ false
    [strToCodes "    5  1RR"] rfl 5 (by decide)

/-! ## Lemmas: encoding-table builder -/

theorem dlookup_foldl_dinsert_not_mem {α : Type} {rest : List (Int × α)}
    {c : Int} (h : c ∉ rest.map (·.1)) (E : List (Int × α)) :
    dlookup c (rest.foldl (fun e kv => dinsert kv.1 kv.2 e) E) = dlookup c E := by
  induction rest generalizing E with
  | nil => rfl
  | cons kv rest ih =>
      simp only [List.map_cons, List.mem_cons] at h
      push_neg at h
      simp only [List.foldl_cons]
      rw [ih h.2]
      exact dlookup_dinsert_ne _ _ _ _ (fun he => h.1 he.symm)

/-- After the `extra` loop, every `extra` entry is in force. -/
theorem dlookup_applyExtra {ex : List (Int × Int)}
    (hnodup : (ex.map (·.1)).Nodup) {c v : Int} (hmem : (c, v) ∈ ex)
    (enc0 : List (Int × Int)) :
    dlookup c (applyExtra enc0 (some ex)) = some v := by
  induction ex generalizing enc0 with
  | nil => cases hmem
  | cons kv rest ih =>
      simp only [applyExtra, List.foldl_cons]
      rcases List.mem_cons.mp hmem with he | hm
      · subst he
        have hnot : c ∉ rest.map (·.1) := by
          simp only [List.map_cons, List.nodup_cons] at hnodup
          exact hnodup.1
        show dlookup c (rest.foldl (fun e kv => dinsert kv.1 kv.2 e)
          (dinsert c v enc0)) = some v
        rw [dlookup_foldl_dinsert_not_mem hnot]
        exact dlookup_dinsert_self _ _ _
      · have hnodup2 : (rest.map (·.1)).Nodup := by
          simp only [List.map_cons, List.nodup_cons] at hnodup
          exact hnodup.2
        exact ih hnodup2 hm _

/-- Claim C9 (confirmed): for every rule built on a preset that does not
hard-wire its own `extra` table (in particular the ASCII-identity seed),
and whose `extra` overrides contain a mapping `c → v`, a successfully
built table (with no redirect passes) maps `c` to `v` — the `extra`
overrides are applied after the preset, symbol tables, letter run, space
and digit run and therefore take precedence over all of them. -/
theorem claim_C9_extra_override_precedence (preset : Option String)
    (uc lc d s : Option Int) (s1e : Option (List Int)) (s2 : Int)
    (s2e : Option (List Int)) (nl : Nat) (ex : List (Int × Int))
    (enc : List (Int × Int)) (c v : Int)
    (hp1 : preset ≠ some "rowmans") (hp2 : preset ≠ some "greekc")
    (hnodup : (ex.map (·.1)).Nodup) (hmem : (c, v) ∈ ex)
    (h : make_enc preset uc lc d s s1e s2 s2e nl (some ex)
        none none none = .ok enc) :
    dlookup c enc = some v := by
  unfold make_enc at h
  by_cases hA : preset = some "ascii"
  · rw [if_pos hA] at h
    simp only [except_ok_bind, applyRedirect, except_ok_bind,
      Except.ok.injEq] at h
    subst h
    exact dlookup_applyExtra hnodup hmem _
  · by_cases hPU : preset = some "private_use"
    · rw [if_neg hA, if_pos hPU] at h
      simp only [except_ok_bind, applyRedirect, except_ok_bind,
        Except.ok.injEq] at h
      subst h
      exact dlookup_applyExtra hnodup hmem _
    · rw [if_neg hA, if_neg hPU, if_neg hp1, if_neg hp2] at h
      obtain ⟨p, hbase, h⟩ := except_bind_ok h
      obtain ⟨enc3, h3, hbase⟩ := except_bind_ok hbase
      obtain ⟨dg, hdg, hbase⟩ := except_bind_ok hbase
      simp only [Except.ok.injEq] at hbase
      subst hbase
      simp only [except_ok_bind, applyRedirect, Except.ok.injEq] at h
      subst h
      exact dlookup_applyExtra hnodup hmem _

theorem claim_C9_extra_override_precedence_witness :
    dlookup 65 (applyExtra ((List.range' 32 96).foldl
      (fun e k => dinsert (k : Int) (k : Int) e) []) (some [(65, 900)])) =
      some 900 := by
  have hm : make_enc (some "ascii") none none none none none 3710 none 26
      (some [(65, 900)]) none none none =
      .ok (applyExtra ((List.range' 32 96).foldl
        (fun e k => dinsert (k : Int) (k : Int) e) []) (some [(65, 900)])) := by
    rfl
  exact claim_C9_extra_override_precedence (some "ascii") none none none
    none none 3710 none 26 [(65, 900)] _ 65 900 (by decide) (by decide)
    (by decide) (by decide) hm

/-! ## Lemmas: the decoder loop -/

theorem ofOption_ok {o : Option α} {msg : String} {a : α}
    (h : ofOption o msg = .ok a) : o = some a := by
  cases o with
  | none => simp [ofOption] at h
  | some b =>
      injection h with h
      rw [h]

theorem mem_dinsert {x : Int × α} {k : Int} {v : α} {l : List (Int × α)}
    (h : x ∈ dinsert k v l) : x = (k, v) ∨ x ∈ l := by
  induction l with
  | nil => simpa [dinsert] using h
  | cons e rest ih =>
      obtain ⟨k2, v2⟩ := e
      by_cases h2 : k2 = k
      · rw [dinsert, if_pos h2] at h
        rcases List.mem_cons.mp h with he | hm
        · exact Or.inl he
        · exact Or.inr (List.mem_cons_of_mem _ hm)
      · rw [dinsert, if_neg h2] at h
        rcases List.mem_cons.mp h with he | hm
        · exact Or.inr (he ▸ List.mem_cons_self _ _)
        · rcases ih hm with h3 | h3
          · exact Or.inl h3
          · exact Or.inr (List.mem_cons_of_mem _ h3)

/-- Once the extents pair has been seen, the rest of the loop never
changes it. -/
theorem decodePairs_xext (al : Bool) :
    ∀ (ps : List (Nat × Nat)) (st st2 : DecState) (e : Int × Int),
      st.xext = some e → decodePairs al ps st = .ok st2 →
      st2.xext = some e := by
  intro ps
  induction ps with
  | nil =>
      intro st st2 e he h
      unfold decodePairs at h
      simp only [he] at h
      injection h with h
      subst h
      rfl
  | cons p rest ih =>
      intro st st2 e he h
      unfold decodePairs at h
      cases hm : isPenUp p with
      | true =>
          rw [if_pos hm] at h
          simp only [he] at h
          exact ih _ st2 e rfl h
      | false =>
          rw [if_neg (show ¬ isPenUp p = true by simp [hm])] at h
          simp only [he] at h
          exact ih _ st2 e rfl h

/-- A successful decode from a fresh state consumed a first pair that was
not a pen-up marker, and recorded it as the raw extents. -/
theorem decodePairs_first (al : Bool) (ps : List (Nat × Nat))
    (st st2 : DecState) (hx : st.xext = none)
    (h : decodePairs al ps st = .ok st2) :
    ∃ p rest, ps = p :: rest ∧ isPenUp p = false ∧
      st2.xext = some (pairVal p) := by
  cases ps with
  | nil =>
      unfold decodePairs at h
      simp only [hx] at h
      exact Except.noConfusion h
  | cons p rest =>
      cases hm : isPenUp p with
      | true =>
          unfold decodePairs at h
          rw [if_pos hm] at h
          simp only [hx] at h
          exact Except.noConfusion h
      | false =>
          unfold decodePairs at h
          rw [if_neg (show ¬ isPenUp p = true by simp [hm])] at h
          simp only [hx] at h
          refine ⟨p, rest, rfl, hm, ?_⟩
          exact decodePairs_xext al rest _ st2 _ rfl h

/-- A successful `readPairs` with a nonempty result read the record's
extents columns 8 and 9 as its first pair. -/
theorem readPairs_head {line : List Nat} {n : Nat} {ps : List (Nat × Nat)}
    (h : readPairs line n = .ok ps) (hne : ps ≠ []) :
    ∃ a b rest, rawExtPair line = some (a, b) ∧ ps = (a, b) :: rest := by
  cases n with
  | zero =>
      unfold readPairs readPairsAux at h
      injection h with h
      exact absurd h.symm hne
  | succ n =>
      unfold readPairs readPairsAux at h
      cases hga : line.get? (8 + 0 * 2) with
      | none => rw [hga] at h; simp at h
      | some a =>
          cases hgb : line.get? (8 + 0 * 2 + 1) with
          | none => rw [hga, hgb] at h; simp at h
          | some b =>
              rw [hga, hgb] at h
              cases hrest : readPairsAux line n 1 with
              | error m => rw [hrest] at h; simp [Except.map] at h
              | ok t =>
                  rw [hrest] at h
                  simp only [Except.map] at h
                  injection h with h
                  refine ⟨a, b, t, ?_, h.symm⟩
                  unfold rawExtPair
                  have ha8 : line.get? 8 = some a := by rw [← hga]
                  have hb9 : line.get? 9 = some b := by rw [← hgb]
                  rw [ha8, hb9]

/-- One record's decoded glyph has ordered extents whenever the raw
extents pair of the record is ordered. -/
theorem loadRecord_min_le_max {n : Nat} {al : Bool} {bb : BBox}
    {line : List Nat} {code : Int} {g : Glyph} {bb2 : BBox}
    (hext : ∀ a b : Nat, rawExtPair line = some (a, b) → a ≤ b)
    (h : loadRecord n al bb line = .ok ((code, g), bb2)) :
    g.min_x ≤ g.max_x := by
  unfold loadRecord at h
  obtain ⟨r, hr, h⟩ := except_bind_ok h
  obtain ⟨nr, hnr, h⟩ := except_bind_ok h
  obtain ⟨ps, hps, h⟩ := except_bind_ok h
  obtain ⟨st, hst, h⟩ := except_bind_ok h
  obtain ⟨e, he, h⟩ := except_bind_ok h
  have hxe : st.xext = some e := ofOption_ok he
  obtain ⟨p, rest, hps2, hm, hxp⟩ := decodePairs_first al ps _ st rfl hst
  have hep : e = pairVal p := by
    rw [hxe] at hxp
    cases hxp
    rfl
  have hps3 : ps ≠ [] := by rw [hps2]; simp
  obtain ⟨a, b, t, hraw, hpab⟩ := readPairs_head (by
    show readPairs line nr.toNat = .ok ps
    exact hps) hps3
  have hab : a ≤ b := hext a b hraw
  have hpe : p = (a, b) := by
    rw [hps2] at hpab
    cases hpab
    rfl
  have hval : e.1 ≤ e.2 := by
    rw [hep, hpe]
    unfold pairVal
    simp only []
    omega
  simp only [Except.ok.injEq, Prod.mk.injEq] at h
  have hg : g = ⟨(if al then ((0 : Int), e.2 - e.1) else e).1,
      (if al then ((0 : Int), e.2 - e.1) else e).2, st.segs⟩ := by
    exact h.1.2.symm
  rw [hg]
  cases al with
  | true => simp only [if_true]; omega
  | false => simp only [if_false]; exact hval

/-- Claim C8 (corrected, counterexample): `min_x ≤ max_x` does NOT hold
for every successfully decoded glyph — a record whose raw extents pair is
reversed (here `"SQ"`, raw `(1, -1)`) decodes without error and yields
`min_x = 0 > max_x = -2` under `align_left = true`. -/
theorem claim_C8_min_le_max_counterexample :
    loadLines true [strToCodes "    1  1SQ"] =
      .ok ([(1, ⟨0, -2, [[]]⟩)], ⟨0, 1, -1, 0⟩) ∧ ¬ ((0 : Int) ≤ -2) :=
  ⟨rfl, by decide⟩

/-- Claim C8 (amended): every glyph of a successfully decoded stream has
`min_x ≤ max_x` — under either `align_left` mode — provided each record's
raw extents pair is ordered (first value ≤ second value), which real font
files satisfy; the decoder itself never checks this. -/
theorem claim_C8_min_le_max (al : Bool) (lines : List (List Nat))
    (gl : List (Int × Glyph)) (bb : BBox)
    (hext : ∀ line ∈ lines, ∀ a b : Nat, rawExtPair line = some (a, b) → a ≤ b)
    (h : loadLines al lines = .ok (gl, bb)) :
    ∀ cg ∈ gl, cg.2.min_x ≤ cg.2.max_x := by
  suffices haux : ∀ (ls : List (List Nat)) (n : Nat)
      (acc : List (Int × Glyph)) (bb0 : BBox),
      (∀ line ∈ ls, ∀ a b : Nat, rawExtPair line = some (a, b) → a ≤ b) →
      (∀ cg ∈ acc, cg.2.min_x ≤ cg.2.max_x) →
      loadLinesAux al ls n acc bb0 = .ok (gl, bb) →
      ∀ cg ∈ gl, cg.2.min_x ≤ cg.2.max_x by
    exact haux lines 0 [] ⟨0, 0, 0, 0⟩ hext (by intro cg hcg; cases hcg) h
  intro ls
  induction ls with
  | nil =>
      intro n acc bb0 hext2 hacc h
      unfold loadLinesAux at h
      injection h with h
      injection h with h1 h2
      rw [← h1]
      exact hacc
  | cons line rest ih =>
      intro n acc bb0 hext2 hacc h
      unfold loadLinesAux at h
      obtain ⟨⟨⟨code, g⟩, bb3⟩, hrec, h⟩ := except_bind_ok h
      refine ih (n + 1) _ bb3 (fun l hl => hext2 l (List.mem_cons_of_mem _ hl))
        ?_ h
      intro cg hcg
      rcases mem_dinsert hcg with he | hm
      · rw [he]
        exact loadRecord_min_le_max
          (hext2 line (List.mem_cons_self _ _)) hrec
      · exact hacc cg hm

theorem claim_C8_min_le_max_witness :
    (Glyph.mk 0 5 [[((3 : Int), (-1 : Int))]]).min_x ≤
      (Glyph.mk 0 5 [[((3 : Int), (-1 : Int))]]).max_x := by
  have hload : loadLines true [strToCodes "    1  2PUSQ"] =
      .ok ([(1, ⟨0, 5, [[(3, -1)]]⟩)], ⟨-2, 1, -1, 3⟩) := by rfl
  have hext : ∀ line ∈ [strToCodes "    1  2PUSQ"],
      ∀ a b : Nat, rawExtPair line = some (a, b) → a ≤ b := by
    intro line hl a b hab
    simp only [List.mem_singleton] at hl
    subst hl
    have hre : rawExtPair (strToCodes "    1  2PUSQ") = some (80, 85) := by rfl
    rw [hre] at hab
    injection hab with hab
    injection hab with h1 h2
    omega
  exact claim_C8_min_le_max true [strToCodes "    1  2PUSQ"]
    [(1, ⟨0, 5, [[(3, -1)]]⟩)] ⟨-2, 1, -1, 3⟩ hext hload
    (1, ⟨0, 5, [[(3, -1)]]⟩) (List.mem_singleton.mpr rfl)

/-! ## Lemmas: segment chunking (the pen-up state machine) -/

theorem splitOnMarkers_ne_nil (ps : List (Nat × Nat)) :
    splitOnMarkers ps ≠ [] := by
  cases ps with
  | nil => simp [splitOnMarkers]
  | cons p r =>
      unfold splitOnMarkers
      by_cases hm : isPenUp p = true
      · rw [if_pos hm]; simp
      · rw [if_neg hm]
        cases splitOnMarkers r <;> simp

theorem consHead_nil {X : List (List α)} (h : X ≠ []) : consHead [] X = X := by
  cases X with
  | nil => exact absurd rfl h
  | cons c cs => simp [consHead]

theorem splitOnMarkers_cons_marker (p : Nat × Nat) (r : List (Nat × Nat))
    (hm : isPenUp p = true) :
    splitOnMarkers (p :: r) = [] :: splitOnMarkers r := by
  rw [splitOnMarkers]
  rw [if_pos hm]

theorem splitOnMarkers_cons_drawn (p : Nat × Nat) (r : List (Nat × Nat))
    (hm : isPenUp p = false) :
    splitOnMarkers (p :: r) =
      match splitOnMarkers r with
      | c :: cs => (p :: c) :: cs
      | [] => [[p]] := by
  rw [splitOnMarkers]
  rw [if_neg (by simp [hm])]

/-- The drawn-pair state machine of the decode loop: starting after the
extents pair with an open (possibly empty) segment `acc`, the loop always
succeeds and its final segment list is the accumulated segments followed
by the marker-split chunks of the remaining pairs, with `acc` prepended to
the first chunk.  This is the exact shape of the source's
`points`/`pathsegs` bookkeeping (lines 105–144). -/
theorem decodePairs_chunks (al : Bool) (e : Int × Int) :
    ∀ (ps : List (Nat × Nat)) (st : DecState) (acc : List (Int × Int)),
      st.xext = some e → st.points = some acc →
      ∃ st2, decodePairs al ps st = .ok st2 ∧ st2.xext = some e ∧
        st2.segs = st.segs ++
          consHead acc ((splitOnMarkers ps).map
            (List.map (fun p => adjDrawn al e (pairVal p)))) := by
  intro ps
  induction ps with
  | nil =>
      intro st acc hx hp
      unfold decodePairs
      simp only [hx, hp]
      refine ⟨_, rfl, rfl, ?_⟩
      simp [splitOnMarkers, consHead]
  | cons p r ih =>
      intro st acc hx hp
      cases hm : isPenUp p with
      | true =>
          obtain ⟨st2, hrun, hx2, hsegs⟩ :=
            ih ⟨some e, some [], st.segs ++ [acc], st.bbox⟩ [] rfl rfl
          refine ⟨st2, ?_, hx2, ?_⟩
          · unfold decodePairs
            rw [if_pos hm]
            simp only [hx, hp]
            exact hrun
          · rw [hsegs]
            have hne : (splitOnMarkers r).map
                (List.map (fun p => adjDrawn al e (pairVal p))) ≠ [] := by
              simp [splitOnMarkers_ne_nil r]
            rw [splitOnMarkers_cons_marker p r hm]
            show (st.segs ++ [acc]) ++ consHead [] _ = _
            rw [consHead_nil hne]
            simp [consHead, List.append_assoc]
      | false =>
          obtain ⟨st2, hrun, hx2, hsegs⟩ :=
            ih ⟨some e, some (acc ++ [adjDrawn al e (pairVal p)]), st.segs,
                updBBox st.bbox (pairVal p)⟩
              (acc ++ [adjDrawn al e (pairVal p)]) rfl rfl
          refine ⟨st2, ?_, hx2, ?_⟩
          · unfold decodePairs
            rw [if_neg (by simp [hm])]
            simp only [hx, hp, Option.getD_some]
            exact hrun
          · rw [hsegs]
            rw [splitOnMarkers_cons_drawn p r hm]
            cases hs : splitOnMarkers r with
            | nil => exact absurd hs (splitOnMarkers_ne_nil r)
            | cons c cs =>
                simp [consHead, List.append_assoc]

/-- The path of a decoded glyph is exactly the marker-split chunking of
the record's pairs after the extents pair, each drawn pair adjusted by
the raw extents when `align_left`. -/
theorem loadRecord_segs {n : Nat} {al : Bool} {bb : BBox} {line : List Nat}
    {code : Int} {g : Glyph} {bb2 : BBox}
    (h : loadRecord n al bb line = .ok ((code, g), bb2)) :
    ∃ (nr : Int) (ps : List (Nat × Nat)) (p0 : Nat × Nat)
      (rest : List (Nat × Nat)),
      pyInt ((line.drop 5).take 3) = some nr ∧
      readPairs line nr.toNat = .ok ps ∧ ps = p0 :: rest ∧
      isPenUp p0 = false ∧
      g.path = (splitOnMarkers rest).map
        (List.map (fun p => adjDrawn al (pairVal p0) (pairVal p))) := by
  unfold loadRecord at h
  obtain ⟨r, hr, h⟩ := except_bind_ok h
  obtain ⟨nr, hnr, h⟩ := except_bind_ok h
  obtain ⟨ps, hps, h⟩ := except_bind_ok h
  obtain ⟨st, hst, h⟩ := except_bind_ok h
  obtain ⟨e, he, h⟩ := except_bind_ok h
  obtain ⟨p0, rest, hps2, hm, hxp⟩ := decodePairs_first al ps _ st rfl hst
  subst hps2
  have hstep : decodePairs al (p0 :: rest) ⟨none, none, [], bb⟩ =
      decodePairs al rest
        ⟨some (pairVal p0), some [], [], updBBox bb (pairVal p0)⟩ := by
    conv_lhs => rw [decodePairs]
    rw [if_neg (by simp [hm])]
    rfl
  rw [hstep] at hst
  obtain ⟨st2, hrun, hx2, hsegs⟩ :=
    decodePairs_chunks al (pairVal p0) rest
      ⟨some (pairVal p0), some [], [], updBBox bb (pairVal p0)⟩ [] rfl rfl
  rw [hrun] at hst
  injection hst with hst
  subst hst
  refine ⟨nr, p0 :: rest, p0, rest, ofOption_ok hnr, hps, rfl, hm, ?_⟩
  simp only [Except.ok.injEq, Prod.mk.injEq] at h
  have hg : g = ⟨_, _, st2.segs⟩ := h.1.2.symm
  rw [hg]
  show st2.segs = _
  rw [hsegs]
  have hne : (splitOnMarkers rest).map
      (List.map (fun p => adjDrawn al (pairVal p0) (pairVal p))) ≠ [] := by
    simp [splitOnMarkers_ne_nil rest]
  simp only [List.nil_append]
  exact consHead_nil hne

/-- Claim C7 (corrected, counterexample): the decoder CAN emit a
zero-point path segment — the source closes the open segment whenever
`points` is not `None` (not whenever it is non-empty), and `points` is the
empty list right after the extents pair, so a record with no drawn pairs
decodes to one empty segment rather than none. -/
theorem claim_C7_no_empty_segments_counterexample :
    loadLines true [strToCodes "    1  1JZ"] =
      .ok ([(1, ⟨0, 16, [[]]⟩)], ⟨-8, 0, 0, 8⟩) ∧
    ([] : List (Int × Int)) ∈ (Glyph.mk 0 16 [[]]).path :=
  ⟨rfl, by decide⟩

/-- Claim C7 (amended): every path segment of every decoded glyph is
non-empty provided that, in each record, no pen-up boundary (a pen-up
marker or the end of the record) immediately follows the extents pair or
another pen-up marker — i.e. every marker-split chunk of the pairs after
the extents pair is non-empty.  Without that condition the decoder emits
a zero-point segment for each such degenerate boundary. -/
theorem claim_C7_no_empty_segments (al : Bool) (lines : List (List Nat))
    (gl : List (Int × Glyph)) (bb : BBox)
    (hgood : ∀ line ∈ lines, ∀ (nr : Int) (ps : List (Nat × Nat))
        (p0 : Nat × Nat) (rest : List (Nat × Nat)),
        pyInt ((line.drop 5).take 3) = some nr →
        readPairs line nr.toNat = .ok ps → ps = p0 :: rest →
        ∀ chunk ∈ splitOnMarkers rest, chunk ≠ [])
    (h : loadLines al lines = .ok (gl, bb)) :
    ∀ cg ∈ gl, ∀ seg ∈ cg.2.path, seg ≠ [] := by
  suffices haux : ∀ (ls : List (List Nat)) (n : Nat)
      (acc : List (Int × Glyph)) (bb0 : BBox),
      (∀ line ∈ ls, ∀ (nr : Int) (ps : List (Nat × Nat)) (p0 : Nat × Nat)
        (rest : List (Nat × Nat)),
        pyInt ((line.drop 5).take 3) = some nr →
        readPairs line nr.toNat = .ok ps → ps = p0 :: rest →
        ∀ chunk ∈ splitOnMarkers rest, chunk ≠ []) →
      (∀ cg ∈ acc, ∀ seg ∈ cg.2.path, seg ≠ []) →
      loadLinesAux al ls n acc bb0 = .ok (gl, bb) →
      ∀ cg ∈ gl, ∀ seg ∈ cg.2.path, seg ≠ [] by
    exact haux lines 0 [] ⟨0, 0, 0, 0⟩ hgood (by intro cg hcg; cases hcg) h
  intro ls
  induction ls with
  | nil =>
      intro n acc bb0 hg2 hacc h
      unfold loadLinesAux at h
      injection h with h
      injection h with h1 h2
      rw [← h1]
      exact hacc
  | cons line rest ih =>
      intro n acc bb0 hg2 hacc h
      unfold loadLinesAux at h
      obtain ⟨⟨⟨code, g⟩, bb3⟩, hrec, h⟩ := except_bind_ok h
      refine ih (n + 1) _ bb3
        (fun l hl => hg2 l (List.mem_cons_of_mem _ hl)) ?_ h
      intro cg hcg
      rcases mem_dinsert hcg with he | hmem
      · rw [he]
        intro seg hseg
        obtain ⟨nr, ps, p0, prest, hnr, hps, hcons, hm, hpath⟩ :=
          loadRecord_segs hrec
        rw [hpath] at hseg
        obtain ⟨chunk, hchunk, hmap⟩ := List.mem_map.mp hseg
        have hc : chunk ≠ [] :=
          hg2 line (List.mem_cons_self _ _) nr ps p0 prest hnr hps hcons
            chunk hchunk
        rw [← hmap]
        simpa using hc
      · exact hacc cg hmem

theorem claim_C7_no_empty_segments_witness :
    ([((3 : Int), (-1 : Int))] : List (Int × Int)) ≠ [] := by
  have hload : loadLines true [strToCodes "    1  2PUSQ"] =
      .ok ([(1, ⟨0, 5, [[(3, -1)]]⟩)], ⟨-2, 1, -1, 3⟩) := by rfl
  have hgood : ∀ line ∈ [strToCodes "    1  2PUSQ"],
      ∀ (nr : Int) (ps : List (Nat × Nat)) (p0 : Nat × Nat)
        (rest : List (Nat × Nat)),
        pyInt ((line.drop 5).take 3) = some nr →
        readPairs line nr.toNat = .ok ps → ps = p0 :: rest →
        ∀ chunk ∈ splitOnMarkers rest, chunk ≠ [] := by
    intro line hl nr ps p0 rest hnr hps hcons chunk hchunk
    simp only [List.mem_singleton] at hl
    subst hl
    have h2 : pyInt (((strToCodes "    1  2PUSQ").drop 5).take 3) =
        some 2 := by rfl
    rw [h2] at hnr
    injection hnr with hnr
    subst hnr
    have h3 : readPairs (strToCodes "    1  2PUSQ") (2 : Int).toNat =
        .ok [(80, 85), (83, 81)] := by rfl
    rw [h3] at hps
    injection hps with hps
    subst hps
    cases hcons
    have h4 : splitOnMarkers [(83, 81)] = [[(83, 81)]] := by rfl
    rw [h4] at hchunk
    simp only [List.mem_singleton] at hchunk
    subst hchunk
    simp
  exact claim_C7_no_empty_segments true [strToCodes "    1  2PUSQ"]
    [(1, ⟨0, 5, [[(3, -1)]]⟩)] ⟨-2, 1, -1, 3⟩ hgood hload
    (1, ⟨0, 5, [[(3, -1)]]⟩) (List.mem_singleton.mpr rfl)
    [(3, -1)] (by decide)

/-! ## Lemmas: the union's code allocation -/

/-- Every code the encoding loop remaps is sent strictly above the running
offset's lower bound `m` (`f1`'s maximum glyph code). -/
theorem orEncAux_remap_gt (f1g : List (Int × Glyph))
    (f2enc : List (Int × Int)) (m : Int) :
    ∀ (ks : List Int) (enc remap : List (Int × Int)) (off : Int),
      m ≤ off → (∀ kv ∈ remap, m < kv.2) →
      ∀ kv ∈ (orEncAux f1g f2enc ks enc remap off).2.1, m < kv.2 := by
  intro ks
  induction ks with
  | nil =>
      intro enc remap off hoff hrm kv hkv
      exact hrm kv hkv
  | cons k rest ih =>
      intro enc remap off hoff hrm kv hkv
      unfold orEncAux at hkv
      by_cases h1 : (dlookup k enc).isSome = true
      · rw [if_pos h1] at hkv
        exact ih enc remap off hoff hrm kv hkv
      · rw [if_neg h1] at hkv
        cases h2 : dlookup k f2enc with
        | none =>
            simp only [h2] at hkv
            exact ih _ _ _ hoff hrm kv hkv
        | some code =>
            simp only [h2] at hkv
            by_cases h3 : (dlookup code f1g).isSome = true
            · rw [if_pos h3] at hkv
              refine ih _ _ _ (by omega) ?_ kv hkv
              intro kv2 hkv2
              rcases mem_dinsert hkv2 with he | hmem
              · rw [he]; simp; omega
              · exact hrm kv2 hmem
            · rw [if_neg h3] at hkv
              exact ih _ _ _ hoff hrm kv hkv

/-- With encodings, the glyph-insertion loop never touches a base key,
provided every colliding `f2` code is remapped. -/
theorem orGlyphsAux_enc_preserves (f1g : List (Int × Glyph)) (m : Int)
    (hmax : ∀ (c : Int) (g : Glyph), dlookup c f1g = some g → c ≤ m)
    (rm : List (Int × Int)) (hrm : ∀ kv ∈ rm, m < kv.2) :
    ∀ (l2 : List (Int × Glyph)) (acc : List (Int × Glyph)) (off : Int),
      (∀ k ∈ dkeys l2, (dlookup k f1g).isSome = true →
        (dlookup k rm).isSome = true) →
      (∀ (c : Int) (g : Glyph), dlookup c f1g = some g →
        dlookup c acc = some g) →
      ∀ (c : Int) (g : Glyph), dlookup c f1g = some g →
        dlookup c (orGlyphsAux (some rm) l2 acc off).1 = some g := by
  intro l2
  induction l2 with
  | nil =>
      intro acc off hcov hacc c g hcg
      simp only [orGlyphsAux]
      exact hacc c g hcg
  | cons kg rest ih =>
      obtain ⟨k, gg⟩ := kg
      intro acc off hcov hacc c g hcg
      simp only [orGlyphsAux]
      refine ih _ off (fun k2 hk2 => hcov k2 (List.mem_cons_of_mem _ hk2))
        ?_ c g hcg
      intro c2 g2 hc2
      have hne : ((dlookup k rm).getD k) ≠ c2 := by
        cases hrk : dlookup k rm with
        | some v =>
            have hv : m < v := hrm (k, v) (mem_of_dlookup_eq_some hrk)
            have hc : c2 ≤ m := hmax c2 g2 hc2
            simp only [hrk, Option.getD_some]
            omega
        | none =>
            have h1 : ¬ (dlookup k f1g).isSome = true := by
              intro hs
              have h4 := hcov k (by simp [dkeys]) hs
              rw [hrk] at h4
              simp at h4
            simp only [hrk, Option.getD_none]
            intro he
            apply h1
            rw [he, hc2]
            rfl
      rw [dlookup_dinsert_ne _ _ _ _ hne]
      exact hacc c2 g2 hc2

/-- Without encodings, every `f2` glyph is inserted above `m`, so base
keys are never touched. -/
theorem orGlyphsAux_noenc_preserves (f1g : List (Int × Glyph)) (m : Int)
    (hmax : ∀ (c : Int) (g : Glyph), dlookup c f1g = some g → c ≤ m) :
    ∀ (l2 : List (Int × Glyph)) (acc : List (Int × Glyph)) (off : Int),
      m ≤ off →
      (∀ (c : Int) (g : Glyph), dlookup c f1g = some g →
        dlookup c acc = some g) →
      ∀ (c : Int) (g : Glyph), dlookup c f1g = some g →
        dlookup c (orGlyphsAux none l2 acc off).1 = some g := by
  intro l2
  induction l2 with
  | nil =>
      intro acc off hoff hacc c g hcg
      simp only [orGlyphsAux]
      exact hacc c g hcg
  | cons kg rest ih =>
      obtain ⟨k, gg⟩ := kg
      intro acc off hoff hacc c g hcg
      simp only [orGlyphsAux]
      refine ih _ (off + 1) (by omega) ?_ c g hcg
      intro c2 g2 hc2
      have hne : off + 1 ≠ c2 := by
        have hc := hmax c2 g2 hc2
        omega
      rw [dlookup_dinsert_ne _ _ _ _ hne]
      exact hacc c2 g2 hc2

/-- Claim C2 (corrected, counterexample): the union does NOT always map a
base code to the base glyph.  When both operands carry an encoding, an
`f2` glyph whose code collides with a base code is only remapped if that
code is reached through an `f2` encoding key absent from `f1`'s encoding;
here the key 65 is already in `f1`'s encoding, no remap is recorded, and
`f2`'s glyph for code 1 silently overwrites `f1`'s. -/
theorem claim_C2_merge_preserves_base_counterexample :
    hershey_or ⟨[(1, ⟨0, 0, []⟩)], some [(65, 1)], 9, (0, 0), (0, 0)⟩
               ⟨[(1, ⟨0, 1, []⟩)], some [(65, 1)], 9, (0, 0), (0, 0)⟩ =
      .ok ⟨[(1, ⟨0, 1, []⟩)], some [(65, 1)], 9, (0, 0), (0, 0)⟩ ∧
    dlookup 1 [((1 : Int), Glyph.mk 0 0 [])] = some (Glyph.mk 0 0 []) ∧
    dlookup 1 [((1 : Int), Glyph.mk 0 1 [])] ≠ some (Glyph.mk 0 0 []) :=
  ⟨rfl, rfl, by decide⟩

/-- Claim C2 (amended): for every pair of glyph sets passing the union
precondition, the merged set maps every base code `c` to exactly `f1`'s
glyph for `c`, provided that — when encodings are present — every `f2`
glyph code that also occurs in `f1.glyphs` is remapped (i.e. appears in
the remap table `f2_remap` that the union builds from `f2`'s encoding
keys that are absent from `f1`'s encoding).  Without encodings this holds
unconditionally. -/
theorem claim_C2_merge_preserves_base (f1 f2 res : GlyphSet)
    (hcov : f1.encoding.isSome = true →
      ∀ k ∈ dkeys f2.glyphs, (dlookup k f1.glyphs).isSome = true →
        (dlookup k (orRemap f1 f2)).isSome = true)
    (h : hershey_or f1 f2 = .ok res) :
    ∀ (c : Int) (g : Glyph), dlookup c f1.glyphs = some g →
      dlookup c res.glyphs = some g := by
  unfold hershey_or at h
  by_cases hpe : f1.encoding.isSome = f2.encoding.isSome
  · rw [if_pos hpe] at h
    cases hmax : (dkeys f1.glyphs).max? with
    | none =>
        rw [hmax] at h
        exact Except.noConfusion h
    | some m =>
        rw [hmax] at h
        have hcm : ∀ (c : Int) (g : Glyph),
            dlookup c f1.glyphs = some g → c ≤ m := by
          intro c g hcg
          exact le_of_max?_eq_some hmax
            (List.mem_map_of_mem (·.1) (mem_of_dlookup_eq_some hcg))
        cases henc1 : f1.encoding with
        | none =>
            cases henc2 : f2.encoding with
            | none =>
                simp only [henc1, henc2] at h
                injection h with h
                subst h
                intro c g hcg
                exact orGlyphsAux_noenc_preserves f1.glyphs m hcm
                  f2.glyphs f1.glyphs m (le_refl m) (fun c2 g2 hc2 => hc2)
                  c g hcg
            | some e2 =>
                rw [henc1, henc2] at hpe
                simp at hpe
        | some e1 =>
            cases henc2 : f2.encoding with
            | none =>
                rw [henc1, henc2] at hpe
                simp at hpe
            | some e2 =>
                simp only [henc1, henc2] at h
                injection h with h
                subst h
                intro c g hcg
                have horm : orRemap f1 f2 =
                    (orEncAux f1.glyphs e2
                      (List.insertionSort (· ≤ ·) (dkeys e2)) e1 [] m).2.1 := by
                  unfold orRemap
                  rw [henc1, henc2, hmax]
                have hrm : ∀ kv ∈ (orEncAux f1.glyphs e2
                    (List.insertionSort (· ≤ ·) (dkeys e2)) e1 [] m).2.1,
                    m < kv.2 := by
                  apply orEncAux_remap_gt f1.glyphs e2 m _ _ _ _ (le_refl m)
                  intro kv hkv
                  cases hkv
                have hcov2 : ∀ k ∈ dkeys f2.glyphs,
                    (dlookup k f1.glyphs).isSome = true →
                    (dlookup k ((orEncAux f1.glyphs e2
                      (List.insertionSort (· ≤ ·) (dkeys e2))
                      e1 [] m).2.1)).isSome = true := by
                  intro k hk hs
                  have h5 := hcov (by rw [henc1]; rfl) k hk hs
                  rw [horm] at h5
                  exact h5
                exact orGlyphsAux_enc_preserves f1.glyphs m hcm _ hrm
                  f2.glyphs f1.glyphs _ hcov2 (fun c2 g2 hc2 => hc2) c g hcg
  · rw [if_neg hpe] at h
    exact Except.noConfusion h

theorem claim_C2_merge_preserves_base_witness :
    dlookup 1 [((1 : Int), Glyph.mk 0 0 []), (2, Glyph.mk 0 1 [])] =
      some (Glyph.mk 0 0 []) := by
  have hor : hershey_or ⟨[(1, ⟨0, 0, []⟩)], none, 9, (0, 0), (0, 0)⟩
      ⟨[(2, ⟨0, 1, []⟩)], none, 9, (0, 0), (0, 0)⟩ =
      .ok ⟨[(1, ⟨0, 0, []⟩), (2, ⟨0, 1, []⟩)], none, 9, (0, 0), (0, 0)⟩ := by
    rfl
  exact claim_C2_merge_preserves_base
    ⟨[(1, ⟨0, 0, []⟩)], none, 9, (0, 0), (0, 0)⟩
    ⟨[(2, ⟨0, 1, []⟩)], none, 9, (0, 0), (0, 0)⟩
    ⟨[(1, ⟨0, 0, []⟩), (2, ⟨0, 1, []⟩)], none, 9, (0, 0), (0, 0)⟩
    (fun habs => Bool.noConfusion habs) hor 1 ⟨0, 0, []⟩ rfl

/-! ## Lemmas: round trip, encoder side -/

theorem flatPairs_append (a b : List (Nat × Nat)) :
    flatPairs (a ++ b) = flatPairs a ++ flatPairs b := by
  induction a with
  | nil => rfl
  | cons p r ih => simp [flatPairs, ih]

theorem pyChr_ok {v : Int} (h0 : 0 ≤ v) (h1 : v ≤ 1114111) :
    pyChr v = .ok v.toNat := by
  unfold pyChr
  rw [if_pos ⟨h0, h1⟩]

/-- Bounds on one point sufficient for its two characters to be written. -/
def ptOk (p : Int × Int) : Prop :=
  -82 ≤ p.1 ∧ p.1 + 82 ≤ 1114111 ∧ -82 ≤ p.2 ∧ p.2 + 82 ≤ 1114111

theorem saveSeg_ok {s : List (Int × Int)} (h : ∀ p ∈ s, ptOk p) :
    saveSeg s = .ok (flatPairs (segPairs s)) := by
  induction s with
  | nil => rfl
  | cons p r ih =>
      obtain ⟨h1, h2, h3, h4⟩ := h p (List.mem_cons_self _ _)
      unfold saveSeg
      rw [pyChr_ok (by omega) (by omega), pyChr_ok (by omega) (by omega)]
      rw [ih (fun q hq => h q (List.mem_cons_of_mem _ hq))]
      rfl

theorem saveTail_ok {path : List (List (Int × Int))}
    (h : ∀ s ∈ path, ∀ p ∈ s, ptOk p) :
    saveTail path = .ok (flatPairs (pathPairsTail path)) := by
  induction path with
  | nil => rfl
  | cons s r ih =>
      unfold saveTail
      rw [saveSeg_ok (h s (List.mem_cons_self _ _))]
      rw [ih (fun s2 hs2 => h s2 (List.mem_cons_of_mem _ hs2))]
      simp only [except_ok_bind]
      rw [show pathPairsTail (s :: r) =
        (32, 82) :: (segPairs s ++ pathPairsTail r) from rfl]
      rw [show flatPairs ((32, 82) :: (segPairs s ++ pathPairsTail r)) =
        32 :: 82 :: flatPairs (segPairs s ++ pathPairsTail r) from rfl]
      rw [flatPairs_append]

theorem savePath_ok {path : List (List (Int × Int))}
    (h : ∀ s ∈ path, ∀ p ∈ s, ptOk p) :
    savePath path = .ok (flatPairs (pathPairs path)) := by
  cases path with
  | nil => rfl
  | cons s r =>
      show (do
        let a ← saveSeg s
        let b ← saveTail r
        Except.ok (a ++ b)) = Except.ok (flatPairs (pathPairs (s :: r)))
      rw [saveSeg_ok (h s (List.mem_cons_self _ _))]
      rw [saveTail_ok (fun s2 hs2 => h s2 (List.mem_cons_of_mem _ hs2))]
      simp only [except_ok_bind]
      rw [show pathPairs (s :: r) = segPairs s ++ pathPairsTail r from rfl]
      rw [flatPairs_append]

/-- Under the field-range side conditions the encoder writes exactly
`recLine`. -/
theorem saveRecord_ok {c : Int} {g : Glyph}
    (hnr : saveNrPoints g < 1000)
    (hmin : -82 ≤ g.min_x ∧ g.min_x + 82 ≤ 1114111)
    (hmax2 : -82 ≤ g.max_x ∧ g.max_x + 82 ≤ 1114111)
    (hpts : ∀ s ∈ g.path, ∀ p ∈ s, ptOk p) :
    saveRecord c g = .ok (recLine c g) := by
  unfold saveRecord
  rw [if_neg (by omega)]
  rw [pyChr_ok (by omega) (by omega), pyChr_ok (by omega) (by omega)]
  rw [savePath_ok hpts]
  rfl

/-! ## Lemmas: round trip, decoder side -/

theorem readPairsAux_exact (line : List Nat) (ps : List (Nat × Nat)) :
    ∀ (i : Nat), line.drop (8 + i * 2) = flatPairs ps →
      readPairsAux line ps.length i = .ok ps := by
  induction ps with
  | nil => intro i h; rfl
  | cons p r ih =>
      intro i h
      obtain ⟨a, b⟩ := p
      have hga : line.get? (8 + i * 2) = some a := by
        rw [List.get?_eq_getElem?]
        have h2 := List.getElem?_drop line (8 + i * 2) 0
        rw [h] at h2
        simp only [Nat.add_zero] at h2
        rw [← h2]
        rfl
      have hgb : line.get? (8 + i * 2 + 1) = some b := by
        rw [List.get?_eq_getElem?]
        have h2 := List.getElem?_drop line (8 + i * 2) 1
        rw [h] at h2
        rw [← h2]
        rw [show flatPairs ((a, b) :: r) = a :: b :: flatPairs r from rfl]
        simp
      have hdrop : line.drop (8 + (i + 1) * 2) = flatPairs r := by
        have h2 : line.drop (8 + (i + 1) * 2) =
            (line.drop (8 + i * 2)).drop 2 := by
          rw [List.drop_drop]
          congr 1
          ring
        rw [h2, h]
        rfl
      show readPairsAux line (r.length + 1) i = .ok ((a, b) :: r)
      unfold readPairsAux
      rw [hga, hgb, ih (i + 1) hdrop]
      rfl

theorem pathPairsTail_length (r : List (List (Int × Int))) :
    (pathPairsTail r).length = (r.map List.length).sum + r.length := by
  induction r with
  | nil => rfl
  | cons s r2 ih =>
      simp only [pathPairsTail, List.length_cons, List.length_append,
        segPairs, List.length_map, List.map_cons, List.sum_cons]
      rw [ih]
      omega

theorem saveNrPoints_toNat {g : Glyph} (hne : g.path ≠ []) :
    (saveNrPoints g).toNat = (pathPairs g.path).length + 1 := by
  cases hp : g.path with
  | nil => exact absurd hp hne
  | cons s r =>
      unfold saveNrPoints
      rw [hp]
      rw [if_pos (by simp)]
      simp only [pathPairs, List.length_append, pathPairsTail_length,
        segPairs, List.length_map, List.map_cons, List.sum_cons,
        List.length_cons]
      omega

/-- Characters of a record after the 8-column header are the flattened
coordinate pairs. -/
theorem recLine_drop8 (c : Int) (g : Glyph) (hc : 0 < c) (hc2 : c ≤ 99999)
    (hnr1 : 1 ≤ saveNrPoints g) (hnr : saveNrPoints g < 1000) :
    (recLine c g).drop 8 =
      flatPairs (((g.min_x + 82).toNat, (g.max_x + 82).toNat) ::
        pathPairs g.path) := by
  unfold recLine
  rw [List.append_assoc]
  have h58 : ∀ l : List Nat, l.drop 8 = (l.drop 5).drop 3 := by
    intro l
    rw [List.drop_drop]
  rw [h58]
  rw [drop_padNum _ (intToDec_length_le hc hc2)]
  rw [drop_padNum _ (intToDec_length_le3 hnr1 (by omega))]
  rfl

theorem segPairs_no_marker {s : List (Int × Int)}
    (h : ∀ p ∈ s, -82 ≤ p.1 ∧ -82 ≤ p.2 ∧ ¬(p.1 = -50 ∧ p.2 = 0)) :
    ∀ q ∈ segPairs s, isPenUp q = false := by
  intro q hq
  obtain ⟨p, hp, hpq⟩ := List.mem_map.mp hq
  obtain ⟨h1, h2, h3⟩ := h p hp
  rw [← hpq]
  have h4 : (p.1 + 82).toNat ≠ 32 ∨ (p.2 + 82).toNat ≠ 82 := by omega
  rcases h4 with h4 | h4 <;> simp [isPenUp, h4]

theorem splitOnMarkers_append_drawn :
    ∀ (xs tail : List (Nat × Nat)), (∀ p ∈ xs, isPenUp p = false) →
      splitOnMarkers (xs ++ tail) = consHead xs (splitOnMarkers tail) := by
  intro xs
  induction xs with
  | nil =>
      intro tail h
      simp only [List.nil_append]
      rw [consHead_nil (splitOnMarkers_ne_nil tail)]
  | cons x xs2 ih =>
      intro tail h
      rw [List.cons_append]
      rw [splitOnMarkers_cons_drawn x _ (h x (List.mem_cons_self _ _))]
      rw [ih tail (fun q hq => h q (List.mem_cons_of_mem _ hq))]
      cases hs : splitOnMarkers tail with
      | nil => exact absurd hs (splitOnMarkers_ne_nil tail)
      | cons c cs => simp [consHead]

theorem splitOnMarkers_pathPairs :
    ∀ (r : List (List (Int × Int))) (s : List (Int × Int)),
      (∀ seg ∈ s :: r, ∀ q ∈ segPairs seg, isPenUp q = false) →
      splitOnMarkers (pathPairs (s :: r)) = segPairs s :: r.map segPairs := by
  intro r
  induction r with
  | nil =>
      intro s hs
      show splitOnMarkers (segPairs s ++ pathPairsTail []) = [segPairs s]
      rw [splitOnMarkers_append_drawn _ _ (hs s (List.mem_cons_self _ _))]
      simp [pathPairsTail, splitOnMarkers, consHead]
  | cons s1 r2 ih =>
      intro s hs
      show splitOnMarkers (segPairs s ++ pathPairsTail (s1 :: r2)) = _
      rw [splitOnMarkers_append_drawn _ _ (hs s (List.mem_cons_self _ _))]
      rw [show pathPairsTail (s1 :: r2) =
        (32, 82) :: (segPairs s1 ++ pathPairsTail r2) from rfl]
      rw [splitOnMarkers_cons_marker _ _ (by simp [isPenUp])]
      rw [show segPairs s1 ++ pathPairsTail r2 = pathPairs (s1 :: r2) from rfl]
      rw [ih s1 (fun seg hseg => hs seg (List.mem_cons_of_mem _ hseg))]
      simp [consHead]

theorem map_adj_segPairs (e : Int × Int) {s : List (Int × Int)}
    (h : ∀ p ∈ s, -82 ≤ p.1 ∧ -82 ≤ p.2) :
    (segPairs s).map (fun q => adjDrawn false e (pairVal q)) = s := by
  induction s with
  | nil => rfl
  | cons p r ih =>
      obtain ⟨h1, h2⟩ := h p (List.mem_cons_self _ _)
      rw [show segPairs (p :: r) =
        ((p.1 + 82).toNat, (p.2 + 82).toNat) :: segPairs r from rfl]
      rw [List.map_cons]
      rw [ih (fun q hq => h q (List.mem_cons_of_mem _ hq))]
      congr 1
      have e1 : (((p.1 + 82).toNat : Int)) - 82 = p.1 := by omega
      have e2 : (((p.2 + 82).toNat : Int)) - 82 = p.2 := by omega
      show ((((p.1 + 82).toNat : Int)) - 82, (((p.2 + 82).toNat : Int)) - 82) = p
      rw [e1, e2]

/-- The first loop iteration on a record's extents pair. -/
theorem decodePairs_extents_step (al : Bool) (p0 : Nat × Nat)
    (rest : List (Nat × Nat)) (bb : BBox) (hm : isPenUp p0 = false) :
    decodePairs al (p0 :: rest) ⟨none, none, [], bb⟩ =
      decodePairs al rest
        ⟨some (pairVal p0), some [], [], updBBox bb (pairVal p0)⟩ := by
  conv_lhs => rw [decodePairs]
  rw [if_neg (by simp [hm])]
  rfl

/-- One full record round trip: decoding (with `align_left = false`) the
record written for a representable code and glyph yields back exactly
that code and glyph. -/
theorem loadRecord_recLine (n : Nat) (bb : BBox) (c : Int) (g : Glyph)
    (hc : 0 < c) (hc2 : c ≤ 99999) (hc3 : c ≠ 12345)
    (hpne : g.path ≠ [])
    (hnr : saveNrPoints g < 1000)
    (hmin1 : -50 ≤ g.min_x) (hmin2 : g.min_x + 82 ≤ 1114111)
    (hmax1 : -50 ≤ g.max_x) (hmax2 : g.max_x + 82 ≤ 1114111)
    (hextm : ¬(g.min_x = -50 ∧ g.max_x = 0))
    (hpts : ∀ s ∈ g.path, ∀ p ∈ s,
      -50 ≤ p.1 ∧ p.1 + 82 ≤ 1114111 ∧ -50 ≤ p.2 ∧ p.2 + 82 ≤ 1114111 ∧
      ¬(p.1 = -50 ∧ p.2 = 0)) :
    ∃ bb2, loadRecord n false bb (recLine c g) = .ok ((c, g), bb2) := by
  obtain ⟨gm, gM, gp⟩ := g
  simp only at hpne hnr hmin1 hmin2 hmax1 hmax2 hextm hpts
  have hnr1 : 1 ≤ saveNrPoints ⟨gm, gM, gp⟩ := saveNrPoints_pos _
  have hparse5 : pyInt ((recLine c ⟨gm, gM, gp⟩).take 5) = some c := by
    unfold recLine
    rw [List.append_assoc]
    exact parse_code_field _ hc hc2
  have hparse3 : pyInt (((recLine c ⟨gm, gM, gp⟩).drop 5).take 3) =
      some (saveNrPoints ⟨gm, gM, gp⟩) := by
    unfold recLine
    rw [List.append_assoc]
    exact parse_count_field _ hc hc2 hnr1 (by omega)
  have hread : readPairs (recLine c ⟨gm, gM, gp⟩)
      (saveNrPoints ⟨gm, gM, gp⟩).toNat =
      .ok (((gm + 82).toNat, (gM + 82).toNat) :: pathPairs gp) := by
    unfold readPairs
    rw [saveNrPoints_toNat hpne]
    rw [show (pathPairs gp).length + 1 =
      ((((gm + 82).toNat, (gM + 82).toNat)) :: pathPairs gp).length from rfl]
    apply readPairsAux_exact
    rw [show 8 + 0 * 2 = 8 from rfl]
    exact recLine_drop8 c ⟨gm, gM, gp⟩ hc hc2 hnr1 hnr
  have hm0 : isPenUp ((gm + 82).toNat, (gM + 82).toNat) = false := by
    have h4 : (gm + 82).toNat ≠ 32 ∨ (gM + 82).toNat ≠ 82 := by omega
    rcases h4 with h4 | h4 <;> simp [isPenUp, h4]
  have hmark : ∀ seg ∈ gp, ∀ q ∈ segPairs seg, isPenUp q = false := by
    intro seg hseg
    apply segPairs_no_marker
    intro p hp
    have h5 := hpts seg hseg p hp
    exact ⟨by omega, by omega, h5.2.2.2.2⟩
  obtain ⟨st2, hrun, hx2, hsegs⟩ :=
    decodePairs_chunks false (pairVal ((gm + 82).toNat, (gM + 82).toNat))
      (pathPairs gp)
      ⟨some (pairVal ((gm + 82).toNat, (gM + 82).toNat)), some [], [],
       updBBox bb (pairVal ((gm + 82).toNat, (gM + 82).toNat))⟩
      [] rfl rfl
  have hsegs2 : st2.segs = gp := by
    rw [hsegs]
    simp only [List.nil_append]
    have hne2 : (splitOnMarkers (pathPairs gp)).map
        (List.map (fun p =>
          adjDrawn false (pairVal ((gm + 82).toNat, (gM + 82).toNat))
            (pairVal p))) ≠ [] := by
      simp [splitOnMarkers_ne_nil]
    rw [consHead_nil hne2]
    cases hp : gp with
    | nil => exact absurd hp hpne
    | cons s r =>
        rw [splitOnMarkers_pathPairs r s (hp ▸ hmark)]
        rw [show (segPairs s :: r.map segPairs) =
          (s :: r).map segPairs from rfl]
        rw [List.map_map]
        have hid : ∀ seg ∈ (s :: r),
            (List.map (fun q =>
              adjDrawn false (pairVal ((gm + 82).toNat, (gM + 82).toNat))
                (pairVal q)) ∘ segPairs) seg = seg := by
          intro seg hseg
          show (segPairs seg).map _ = seg
          apply map_adj_segPairs
          intro p hpp
          have h6 := hpts seg (hp ▸ hseg) p hpp
          exact ⟨by omega, by omega⟩
        rw [List.map_congr_left hid]
        exact List.map_id _
  have heff : effCode n c = c := by simp [effCode, hc3]
  refine ⟨st2.bbox, ?_⟩
  unfold loadRecord
  rw [hparse5]
  simp only [ofOption, except_ok_bind]
  rw [hparse3]
  simp only [ofOption, except_ok_bind]
  rw [hread]
  simp only [except_ok_bind]
  rw [decodePairs_extents_step false _ _ _ hm0]
  rw [hrun]
  simp only [except_ok_bind]
  rw [hx2]
  simp only [ofOption, except_ok_bind]
  simp only [Except.ok.injEq, Prod.mk.injEq, Glyph.mk.injEq]
  refine ⟨⟨heff, ?_, ?_, hsegs2⟩, trivial⟩
  · show (pairVal ((gm + 82).toNat, (gM + 82).toNat)).1 = gm
    show (((gm + 82).toNat : Int)) - 82 = gm
    omega
  · show (pairVal ((gm + 82).toNat, (gM + 82).toNat)).2 = gM
    show (((gM + 82).toNat : Int)) - 82 = gM
    omega

/-! ## Lemmas: round trip, stream level -/

theorem dlookup_eq_of_mem_nodup {α : Type} {l : List (Int × α)}
    (hnd : (dkeys l).Nodup) {c : Int} {v : α} (hm : (c, v) ∈ l) :
    dlookup c l = some v := by
  induction l with
  | nil => cases hm
  | cons e rest ih =>
      obtain ⟨k2, v2⟩ := e
      simp only [dkeys, List.map_cons, List.nodup_cons] at hnd
      rcases List.mem_cons.mp hm with he | hmem
      · injection he with h1 h2
        subst h1
        subst h2
        simp [dlookup]
      · unfold dlookup
        by_cases hk : k2 = c
        · subst hk
          exact absurd (List.mem_map_of_mem (·.1) hmem) hnd.1
        · rw [if_neg hk]
          exact ih hnd.2 hmem

theorem dlookup_foldl_dinsert_mem {α : Type} {pairs : List (Int × α)}
    (hnd : (pairs.map (·.1)).Nodup) {c : Int} {v : α} (hm : (c, v) ∈ pairs)
    (acc : List (Int × α)) :
    dlookup c (pairs.foldl (fun a cg => dinsert cg.1 cg.2 a) acc) = some v := by
  induction pairs generalizing acc with
  | nil => cases hm
  | cons kg rest ih =>
      obtain ⟨k, g⟩ := kg
      simp only [List.map_cons, List.nodup_cons] at hnd
      simp only [List.foldl_cons]
      rcases List.mem_cons.mp hm with he | hmem
      · injection he with h1 h2
        subst h1
        subst h2
        rw [dlookup_foldl_dinsert_not_mem hnd.1]
        exact dlookup_dinsert_self _ _ _
      · exact ih hnd.2 hmem _

/-- Any key list drawn from a dict can be paired back with its values. -/
theorem keys_to_pairs {α : Type} (l : List (Int × α))
    (hnd : (dkeys l).Nodup) :
    ∀ (ks : List Int), (∀ k ∈ ks, k ∈ dkeys l) →
      ∃ pairs : List (Int × α), pairs.map (·.1) = ks ∧
        ∀ cg ∈ pairs, dlookup cg.1 l = some cg.2 ∧ cg ∈ l := by
  intro ks
  induction ks with
  | nil =>
      intro _
      exact ⟨[], rfl, fun cg h => absurd h (List.not_mem_nil cg)⟩
  | cons k rest ih =>
      intro h
      have hk : k ∈ dkeys l := h k (List.mem_cons_self _ _)
      obtain ⟨cg, hcgl, hfst⟩ := List.mem_map.mp hk
      obtain ⟨prs, hmap, hprs⟩ := ih (fun k2 hk2 => h k2 (List.mem_cons_of_mem _ hk2))
      refine ⟨(k, cg.2) :: prs, by simp [hmap], ?_⟩
      intro cg2 hcg2
      have h2 : (k, cg.2) = cg := by
        rw [← hfst]
      rcases List.mem_cons.mp hcg2 with he | hm
      · subst he
        rw [h2]
        refine ⟨?_, hcgl⟩
        apply dlookup_eq_of_mem_nodup hnd
        show (cg.1, cg.2) ∈ l
        rw [Prod.mk.eta]
        exact hcgl
      · exact hprs cg2 hm

/-- A successful `saveAux` run over explicitly paired codes: each record
is `recLine` of its pair. -/
theorem saveAux_records (gs : GlyphSet) :
    ∀ (pairs : List (Int × Glyph)) (acc : List (List Nat)),
      (∀ cg ∈ pairs, dlookup cg.1 gs.glyphs = some cg.2 ∧ glyphOk cg) →
      saveAux gs false (pairs.map (·.1)) acc =
        .ok (acc ++ pairs.map (fun cg => recLine cg.1 cg.2)) := by
  intro pairs
  induction pairs with
  | nil =>
      intro acc h
      simp [saveAux]
  | cons cg rest ih =>
      obtain ⟨c, g⟩ := cg
      intro acc h
      obtain ⟨hlook, hok⟩ := h (c, g) (List.mem_cons_self _ _)
      obtain ⟨hc1, hc2, hc3, hpne, hnr, hm1, hm2, hM1, hM2, hxm, hpts⟩ := hok
      show saveAux gs false (c :: rest.map (·.1)) acc = _
      unfold saveAux
      rw [if_pos ⟨hc1, hc2⟩]
      have hfor : saveGlyphFor gs false c = some g := by
        simpa [saveGlyphFor] using hlook
      rw [hfor]
      show ((match saveRecord c g with
            | Except.error m => Except.error { written := acc, msg := m }
            | Except.ok line =>
                saveAux gs false
                  (rest.map (fun cg : Int × Glyph => cg.1))
                  (acc ++ [line])) : Except SaveErr (List (List Nat))) = _
      rw [saveRecord_ok hnr ⟨by omega, by omega⟩ ⟨by omega, by omega⟩
        (fun s hs p hp => by
          have h5 := hpts s hs p hp
          exact ⟨by omega, by omega, by omega, by omega⟩)]
      show saveAux gs false (rest.map (·.1)) (acc ++ [recLine c g]) = _
      rw [ih (acc ++ [recLine c g])
        (fun cg2 hcg2 => h cg2 (List.mem_cons_of_mem _ hcg2))]
      simp [List.append_assoc]

/-- Decoding a list of `recLine` records accumulates exactly the paired
glyph dict. -/
theorem loadLinesAux_records :
    ∀ (pairs : List (Int × Glyph)) (n : Nat) (acc : List (Int × Glyph))
      (bb : BBox),
      (∀ cg ∈ pairs, glyphOk cg) →
      ∃ bb2, loadLinesAux false (pairs.map (fun cg => recLine cg.1 cg.2))
          n acc bb =
        .ok (pairs.foldl (fun a cg => dinsert cg.1 cg.2 a) acc, bb2) := by
  intro pairs
  induction pairs with
  | nil =>
      intro n acc bb _
      exact ⟨bb, rfl⟩
  | cons cg rest ih =>
      obtain ⟨c, g⟩ := cg
      intro n acc bb h
      obtain ⟨hc1, hc2, hc3, hpne, hnr, hm1, hm2, hM1, hM2, hxm, hpts⟩ :=
        h (c, g) (List.mem_cons_self _ _)
      obtain ⟨bb2, hrec⟩ := loadRecord_recLine (n + 1) bb c g hc1 hc2 hc3
        hpne hnr hm1 hm2 hM1 hM2 hxm hpts
      obtain ⟨bb3, hrest⟩ := ih (n + 1) (dinsert c g acc) bb2
        (fun cg2 hm => h cg2 (List.mem_cons_of_mem _ hm))
      refine ⟨bb3, ?_⟩
      show loadLinesAux false
        (recLine c g :: rest.map (fun cg => recLine cg.1 cg.2)) n acc bb = _
      unfold loadLinesAux
      rw [hrec]
      simp only [except_ok_bind]
      exact hrest

/-- Claim C1 (corrected, counterexample): the round trip is NOT the
identity for every glyph set within the stated field limits — a glyph
with zero path segments (code 1 ≤ 99999, written point count 1 < 1000)
serializes to an extents-only record, which decodes to a glyph with ONE
EMPTY segment, differing from the original on the path. -/
theorem claim_C1_round_trip_counterexample :
    save ⟨[(1, ⟨0, 0, []⟩)], none, 9, (0, 0), (0, 0)⟩ false =
      .ok [strToCodes "    1  1RR"] ∧
    loadLines false [strToCodes "    1  1RR"] =
      .ok ([(1, ⟨0, 0, [[]]⟩)], ⟨0, 0, 0, 0⟩) ∧
    dlookup 1 [((1 : Int), Glyph.mk 0 0 [[]])] ≠
      some (Glyph.mk 0 0 []) :=
  ⟨rfl, rfl, by decide⟩

/-- Claim C1 (amended): for every encoding-free GlyphSet whose glyph dict
has unique codes and whose every entry is representable in-format in the
sense of `glyphOk` (code in (0, 99999] and not the 12345 sentinel, at
least one path segment, reconstructed point count < 1000, every extents
value and drawn point a printable single character, no pair colliding
with the pen-up marker), decoding the encoder's output with
`align_left = false` yields a glyph dict with exactly the same lookup —
the same glyphs (segments and points) and the same `min_x`/`max_x` under
every code. -/
theorem claim_C1_round_trip (gs : GlyphSet)
    (hnd : (dkeys gs.glyphs).Nodup)
    (hok : ∀ cg ∈ gs.glyphs, glyphOk cg) :
    ∃ (lines : List (List Nat)) (res : List (Int × Glyph) × BBox),
      save gs false = .ok lines ∧
      loadLines false lines = .ok res ∧
      ∀ c : Int, dlookup c res.1 = dlookup c gs.glyphs := by
  have hperm : (List.insertionSort (· ≤ ·) (dkeys gs.glyphs)).Perm
      (dkeys gs.glyphs) := List.perm_insertionSort _ _
  obtain ⟨pairs, hmap, hprs⟩ := keys_to_pairs gs.glyphs hnd
    (List.insertionSort (· ≤ ·) (dkeys gs.glyphs))
    (fun k hk => hperm.mem_iff.mp hk)
  have hpnd : (pairs.map (·.1)).Nodup := by
    rw [hmap]
    exact hperm.nodup_iff.mpr hnd
  have hcodes : saveCodes gs false = pairs.map (·.1) := by
    unfold saveCodes
    rw [Bool.false_and]
    show List.insertionSort (· ≤ ·)
        (if false = true then dkeys (gs.encoding.getD [])
         else dkeys gs.glyphs) = pairs.map fun x => x.1
    rw [if_neg Bool.false_ne_true]
    exact hmap.symm
  have hsave : save gs false =
      .ok (pairs.map (fun cg => recLine cg.1 cg.2)) := by
    unfold save
    rw [Bool.false_and]
    rw [hcodes]
    rw [saveAux_records gs pairs []
      (fun cg hcg => ⟨(hprs cg hcg).1, hok cg (hprs cg hcg).2⟩)]
    simp
  obtain ⟨bb2, hload⟩ := loadLinesAux_records pairs 0 [] ⟨0, 0, 0, 0⟩
    (fun cg hcg => hok cg (hprs cg hcg).2)
  refine ⟨pairs.map (fun cg => recLine cg.1 cg.2),
    (pairs.foldl (fun a cg => dinsert cg.1 cg.2 a) [], bb2),
    ?_, ?_, ?_⟩
  · exact hsave
  · exact hload
  intro c
  show dlookup c (pairs.foldl (fun a cg => dinsert cg.1 cg.2 a) []) = _
  cases hdc : dlookup c gs.glyphs with
  | some g2 =>
      have hmem : (c, g2) ∈ gs.glyphs := mem_of_dlookup_eq_some hdc
      have hck : c ∈ pairs.map (·.1) := by
        rw [hmap]
        exact hperm.mem_iff.mpr (List.mem_map_of_mem (·.1) hmem)
      obtain ⟨cg, hcgp, hfst⟩ := List.mem_map.mp hck
      have hcg2 : dlookup cg.1 gs.glyphs = some cg.2 := (hprs cg hcgp).1
      rw [hfst] at hcg2
      rw [hdc] at hcg2
      injection hcg2 with hcg2
      have hmemp : (c, g2) ∈ pairs := by
        have h3 : (c, g2) = cg := by
          rw [← hfst, hcg2]
        rw [h3]
        exact hcgp
      exact dlookup_foldl_dinsert_mem hpnd hmemp []
  | none =>
      have hnk : c ∉ pairs.map (·.1) := by
        rw [hmap]
        intro hck
        have h4 : c ∈ dkeys gs.glyphs := hperm.mem_iff.mp hck
        have h5 := dlookup_isSome_iff_mem_dkeys.mpr h4
        rw [hdc] at h5
        simp at h5
      rw [dlookup_foldl_dinsert_not_mem hnk]
      rfl

theorem claim_C1_round_trip_witness :
    ∃ (lines : List (List Nat)) (res : List (Int × Glyph) × BBox),
      save ⟨[(1, ⟨0, 5, [[(3, -1)]]⟩)], none, 9, (0, 0), (0, 0)⟩ false =
        .ok lines ∧
      loadLines false lines = .ok res ∧
      ∀ c : Int, dlookup c res.1 =
        dlookup c [((1 : Int), Glyph.mk 0 5 [[(3, -1)]])] :=
  claim_C1_round_trip ⟨[(1, ⟨0, 5, [[(3, -1)]]⟩)], none, 9, (0, 0), (0, 0)⟩
    (by decide)
    (by
      intro cg hcg
      simp only [List.mem_singleton] at hcg
      subst hcg
      unfold glyphOk
      refine ⟨by decide, by decide, by decide, by decide, by decide,
        by decide, by decide, by decide, by decide, by decide, ?_⟩
      decide)

end Hershey
